import Mathlib

/-!
Verification of the `rust-bfield` core against its specification.

This file shallowly embeds the Rust sources:

* `src/combinatorial.rs` — the combinatorial marker codec (`rank`, `unrank`,
  `choose`, `next_rank`, `MARKER_TABLES`);
* `src/bfield_member.rs` — the single-filter member (`insert`, `get`,
  `get_raw`, `mask_or_insert`, `marker_pos`);
* `src/bfield.rs` — the cascade (`BField::insert`, `BField::get`).

Machine integers are embedded as `Nat` with explicit bounds.  We model the
checked ("debug") semantics of Rust arithmetic: an operation that would
panic (overflow, underflow, a failed assert, an explicit `panic`) is
represented by `Option.none`, and every arithmetic step that can overflow a
`u64`/`u128` is guarded explicitly.  All definitions are executable.
-/

namespace BFieldVerify

/-- Bit scan used by `tz`: `fuel` bounds the number of binary digits
inspected.  A `u128` has 128 digits, so `fuel = 128` is exact for every
`m < 2^128` (structural recursion on `fuel` keeps the function kernel-
reducible). -/
def tzFuel : Nat → Nat → Nat
  | 0, _ => 0
  | fuel + 1, m => if m % 2 = 1 then 0 else tzFuel fuel (m / 2) + 1

/-- The operation `u128::trailing_zeros` on a `Nat` viewed as a `u128`
(`trailing_zeros 0 = 128` as in Rust). -/
def tz (m : Nat) : Nat :=
  if m = 0 then 128 else tzFuel 128 m

/-- Bit counter used by `popcount`, fueled like `tzFuel` (exact for
`m < 2^fuel`). -/
def popcountFuel : Nat → Nat → Nat
  | 0, _ => 0
  | fuel + 1, m => if m = 0 then 0 else m % 2 + popcountFuel fuel (m / 2)

/-- The operation `u128::count_ones` on a `Nat` viewed as a `u128` (for values `< 2^128`
this is the Hamming weight). -/
def popcount (m : Nat) : Nat := popcountFuel 128 m

/-- Mathematical Hamming weight (well-founded recursion; agrees with
`popcount` on `u128` values, see `popcount_eq_pcW`). -/
def pcW (m : Nat) : Nat :=
  if m = 0 then 0
  else m % 2 + pcW (m / 2)
termination_by m
decreasing_by
  exact Nat.div_lt_self (Nat.pos_of_ne_zero (by assumption)) (by omega)

/-- Function `next_rank` from `src/combinatorial.rs` under checked (debug) semantics:
`none` models a panic (the explicit `unreachable` for marker 0, a `u128`
overflow of `t + 1`, or the underflow of `x - 1` when `x = 0`).
Source:
  `let t = marker | (marker - 1);`
  `(t + 1) | (((!t & (t + 1)) - 1) >> (marker.trailing_zeros() + 1))` -/
def next_rank (marker : Nat) : Option Nat :=
  if marker = 0 then none
  else if 2 ^ 128 ≤ (marker ||| (marker - 1)) + 1 then none
  else if ((2 ^ 128 - 1) ^^^ (marker ||| (marker - 1))) &&&
      ((marker ||| (marker - 1)) + 1) = 0 then none
  else some (((marker ||| (marker - 1)) + 1) |||
    (((((2 ^ 128 - 1) ^^^ (marker ||| (marker - 1))) &&&
      ((marker ||| (marker - 1)) + 1)) - 1) >>> (tz marker + 1)))

/-- The value computed by `next_rank` when no check fires (total companion
of `next_rank`; used to state the pure successor chain). -/
def nextRankW (marker : Nat) : Nat :=
  ((marker ||| (marker - 1)) + 1) |||
    (((((2 ^ 128 - 1) ^^^ (marker ||| (marker - 1))) &&&
      ((marker ||| (marker - 1)) + 1)) - 1) >>> (tz marker + 1))

/-- Number of entries of `MARKER_TABLES[k]` actually filled by the builder in
`src/combinatorial.rs` (`table_size`: 128 for k = 1, 8128 for k = 2, the full
200000 otherwise). -/
def table_size (k : Nat) : Nat :=
  if k = 1 then 128 else if k = 2 then 8128 else 200000

/-- The value stored at index `i` of `MARKER_TABLES[k]` by the build loop
(`table[0] = (1 << k) - 1; table[i] = next_rank(table[i-1])`), under checked
semantics: `none` models a panic during the build. -/
def markerTableAux (k : Nat) : Nat → Option Nat
  | 0 => some ((1 <<< k) - 1)
  | i + 1 => (markerTableAux k i).bind next_rank

/-- Entry `i` of `MARKER_TABLES[k]`: indices at or above the filled range
keep the zero initialization of `vec![0u128; MARKER_TABLE_SIZE]`. -/
def marker_table (k i : Nat) : Option Nat :=
  if i < table_size k then markerTableAux k i else some 0

/-- The `value >= MARKER_TABLE_SIZE` continuation loop of `rank`
(`if marker == 0 { return marker; } marker = next_rank(marker);` repeated
`value - MARKER_TABLE_SIZE` times). -/
def rankAbove (marker : Nat) : Nat → Option Nat
  | 0 => some marker
  | steps + 1 =>
    if marker = 0 then some marker
    else (next_rank marker).bind (fun m => rankAbove m steps)

/-- Function `rank` from `src/combinatorial.rs`.  The leading `assert` (`k > 0 && k < 10`)
is modelled by `none`. -/
def rank (value : Nat) (k : Nat) : Option Nat :=
  if 0 < k ∧ k < 10 then
    if 200000 ≤ value then
      (marker_table k 199999).bind (fun m => rankAbove m (value - 200000))
    else marker_table k value
  else none

/-- Checked `u64` subtraction (debug Rust panics on underflow). -/
def csub (a b : Nat) : Option Nat := if b ≤ a then some (a - b) else none

/-- Checked `u64` multiplication. -/
def cmul64 (a b : Nat) : Option Nat :=
  if a * b < 2 ^ 64 then some (a * b) else none

/-- Checked `u128` multiplication. -/
def cmul128 (a b : Nat) : Option Nat :=
  if a * b < 2 ^ 128 then some (a * b) else none

/-- The `k >= 8` branch of `choose` (`for i in 1..=k` with interleaved
division), with every `u128` operation checked; the final
`TryFrom::try_from(num / denom)` panic (result exceeding `u64`) is `none`.
`left` is the number of remaining loop iterations (the loop is entered with
`left = k`, `i = 1` and runs `i = 1 ..= k`). -/
def chooseBigLoop (n : Nat) : Nat → Nat → Nat → Nat → Option Nat
  | 0, _, num, denom =>
    if num / denom < 2 ^ 64 then some (num / denom) else none
  | left + 1, i, num, denom =>
    (csub (n + 1) i).bind fun f =>
    (cmul128 num f).bind fun num1 =>
    if num1 % i = 0 then chooseBigLoop n left (i + 1) (num1 / i) denom
    else
      (cmul128 denom i).bind fun denom1 =>
      if num1 % denom1 = 0 then chooseBigLoop n left (i + 1) (num1 / denom1) 1
      else chooseBigLoop n left (i + 1) num1 denom1

/-- Function `choose` from `src/combinatorial.rs` (`n : u64`, `k : u8`): closed-form
products for `k ≤ 7` (checked `u64` arithmetic), the interleaved-division
`u128` loop for `k ≥ 8`. -/
def choose (n : Nat) (k : Nat) : Option Nat :=
  match k with
  | 0 => some 1
  | 1 => some n
  | 2 => do
    let s1 ← csub n 1
    let p1 ← cmul64 n s1
    some (p1 / 2)
  | 3 => do
    let s1 ← csub n 1
    let s2 ← csub n 2
    let p1 ← cmul64 n s1
    let p2 ← cmul64 p1 s2
    some (p2 / 6)
  | 4 => do
    let s1 ← csub n 1
    let s2 ← csub n 2
    let s3 ← csub n 3
    let p1 ← cmul64 n s1
    let p2 ← cmul64 p1 s2
    let p3 ← cmul64 p2 s3
    some (p3 / 24)
  | 5 => do
    let s1 ← csub n 1
    let s2 ← csub n 2
    let s3 ← csub n 3
    let s4 ← csub n 4
    let p1 ← cmul64 n s1
    let p2 ← cmul64 p1 s2
    let p3 ← cmul64 p2 s3
    let p4 ← cmul64 p3 s4
    some (p4 / 120)
  | 6 => do
    let s1 ← csub n 1
    let s2 ← csub n 2
    let s3 ← csub n 3
    let s4 ← csub n 4
    let s5 ← csub n 5
    let p1 ← cmul64 n s1
    let p2 ← cmul64 p1 s2
    let p3 ← cmul64 p2 s3
    let p4 ← cmul64 p3 s4
    let p5 ← cmul64 p4 s5
    some (p5 / 720)
  | 7 => do
    let s1 ← csub n 1
    let s2 ← csub n 2
    let s3 ← csub n 3
    let s4 ← csub n 4
    let s5 ← csub n 5
    let s6 ← csub n 6
    let p1 ← cmul64 n s1
    let p2 ← cmul64 p1 s2
    let p3 ← cmul64 p2 s3
    let p4 ← cmul64 p3 s4
    let p5 ← cmul64 p4 s5
    let p6 ← cmul64 p5 s6
    some (p6 / 5040)
  | _ + 8 => chooseBigLoop n k 1 1 1

/-- The `while` loop of `unrank`: remove the lowest set bit, add
`choose(trailing_zeros, idx)` to the `u64` accumulator (checked add).
`fuel` bounds the iteration count; a `u128` marker has at most 128 set
bits, so `fuel = 129` is never exhausted for `marker < 2^128` (the
exhaustion branch is unreachable there). -/
def unrankAux : Nat → Nat → Nat → Nat → Option Nat
  | 0, _, _, _ => none
  | fuel + 1, marker, idx, value =>
    if marker = 0 then some value
    else
      (choose (tz marker) (idx + 1)).bind fun c =>
        if value + c < 2 ^ 64 then
          unrankAux fuel (marker - 1 <<< tz marker) (idx + 1) (value + c)
        else none

/-- Function `unrank` from `src/combinatorial.rs`. -/
def unrank (marker : Nat) : Option Nat := unrankAux 129 marker 0 0

/-- The positions of the set bits of `m`, in increasing order. -/
def bitsList (m : Nat) : List Nat :=
  if m = 0 then []
  else if m % 2 = 1 then 0 :: (bitsList (m / 2)).map (· + 1)
  else (bitsList (m / 2)).map (· + 1)
termination_by m
decreasing_by
  all_goals exact Nat.div_lt_self (Nat.pos_of_ne_zero (by assumption)) (by omega)

/-- Function `sumChoose [c₁, …, cⱼ] i = C(c₁, i) + C(c₂, i+1) + … + C(cⱼ, i+j−1)` —
the combinatorial number system value of a list of bit positions, starting
at degree `i`. -/
def sumChoose : List Nat → Nat → Nat
  | [], _ => 0
  | c :: rest, i => Nat.choose c i + sumChoose rest (i + 1)

/-- The mathematical value decoded from a marker by the combinatorial number
system (what `unrank` computes, see `unrankAux_eq_unrankM`). -/
def unrankM (m : Nat) : Nat := sumChoose (bitsList m) 1

/-! ## Member model (`src/src/bfield_member.rs`)

The bit store is the external crate `mmap_bitvec`, which is not part of this
repository; its `get_range` / `set_range` operations are modelled from the
spec (§4.2): a flat array of bits, ranges read and written MSB-first
(bit `lo` of the range is the most significant bit of the transferred word),
and `set_range` ORs, never overwrites.  A key enters every member function
only through its 128-bit murmur3 hash pair `(h0, h1)` (`murmurhash3_x64_128`
is an external pure function of the key bytes), so keys are represented by
that pair. -/

/-- Modelled from the spec: `get_range(lo..lo+w)` reads the `w` consecutive
bits starting at bit `lo`, most significant first, right-aligned in the
returned word. -/
def getRange (bits : Nat → Bool) (lo : Nat) : Nat → Nat
  | 0 => 0
  | w + 1 => (if bits lo then 2 ^ w else 0) + getRange bits (lo + 1) w

/-- Modelled from the spec: `set_range(lo..lo+w, marker)` bitwise-ORs the
low `w` bits of `marker` into positions `[lo, lo+w)` of the array, most
significant first; prior bits are preserved. -/
def setRange (bits : Nat → Bool) (lo w marker : Nat) : Nat → Bool :=
  fun i => bits i ||
    (decide (lo ≤ i) && decide (i < lo + w) && marker.testBit (lo + w - 1 - i))

/-- Structure `BFieldParams` from `bfield_member.rs`: `n_hashes` (k),
`marker_width` (ν), `n_marker_bits` (κ).  The optional user payload `other`
plays no role in the claims and is omitted. -/
structure BFieldParams where
  n_hashes : Nat
  marker_width : Nat
  n_marker_bits : Nat

/-- Structure `BFieldMember`: a bit store of `size` bits plus parameters;
`bits i` is bit `i` of the store (indices `≥ size` are never touched by the
operations on valid parameters). -/
structure BFieldMember where
  size : Nat
  bits : Nat → Bool
  params : BFieldParams

/-- Function `marker_pos` from `bfield_member.rs`:
`(hash.0 as usize).wrapping_add(n.wrapping_mul(hash.1 as usize)) %
(total_size - marker_size)` — the wrapping 64-bit add and mul compose into a
single `% 2^64`.  (For `marker_size ≥ total_size` the source subtraction or
the `% 0` panics; theorems about concrete member states therefore carry a
`marker_width < size` hypothesis.) -/
def marker_pos (hash : Nat × Nat) (n total_size marker_size : Nat) : Nat :=
  ((hash.1 + n * hash.2) % 2 ^ 64) % (total_size - marker_size)

/-- The `n_hashes` offsets probed for a hash pair (the position loops of
`get_raw` and `insert_raw`). -/
def memberPositions (m : BFieldMember) (hash : Nat × Nat) : List Nat :=
  (List.range m.params.n_hashes).map
    (fun i => marker_pos hash i m.size m.params.marker_width)

/-- The `set_range` loop of `insert_raw`, applied at offsets `0..n`. -/
def insertLoop (hash : Nat × Nat) (size width marker : Nat) (bits : Nat → Bool) :
    Nat → (Nat → Bool)
  | 0 => bits
  | n + 1 => setRange (insertLoop hash size width marker bits n)
      (marker_pos hash n size width) width marker

/-- Function `BFieldMember::insert_raw`: OR the marker into the bit store at
each of the `n_hashes` offsets. -/
def insert_raw (m : BFieldMember) (hash : Nat × Nat) (marker : Nat) : BFieldMember :=
  { m with
    bits := insertLoop hash m.size m.params.marker_width marker m.bits m.params.n_hashes }

/-- Function `BFieldMember::insert`: `insert_raw` of `rank(value, κ)`;
`Option.none` models the panic inside `rank` (κ outside `[1, 9]`). -/
def memberInsert (m : BFieldMember) (hash : Nat × Nat) (value : Nat) :
    Option BFieldMember :=
  (rank value m.params.n_marker_bits).map (insert_raw m hash)

/-- The merge loop of `get_raw`: AND in the `ν`-wide slice at each position,
returning 0 as soon as the popcount of the running intersection drops below
`k` (the early exit). -/
def getRawFold (bits : Nat → Bool) (width k : Nat) : List Nat → Nat → Nat
  | [], merged => merged
  | p :: rest, merged =>
    if popcount (merged &&& getRange bits p width) < k then 0
    else getRawFold bits width k rest (merged &&& getRange bits p width)

/-- Function `BFieldMember::get_raw` minus its `n_hashes ≤ 16` assert (the
assert is modelled at the call sites); the merge starts from `u128::MAX`. -/
def get_raw (m : BFieldMember) (hash : Nat × Nat) (k : Nat) : Nat :=
  getRawFold m.bits m.params.marker_width k (memberPositions m hash) (2 ^ 128 - 1)

/-- The pure intersection of all `n_hashes` slices (no early exit): the
merged marker the spec's step 1 describes.  `getRawFold` is compared against
this in the C2 theorem. -/
def foldAnd (bits : Nat → Bool) (width : Nat) : List Nat → Nat → Nat
  | [], merged => merged
  | p :: rest, merged => foldAnd bits width rest (merged &&& getRange bits p width)

/-- The fully-merged marker of a member for a hash pair (all slices ANDed,
starting from `u128::MAX`, no early exit). -/
def mergedAll (m : BFieldMember) (hash : Nat × Nat) : Nat :=
  foldAnd m.bits m.params.marker_width (memberPositions m hash) (2 ^ 128 - 1)

/-- Enum `BFieldLookup` from `bfield_member.rs`. -/
inductive BFieldLookup where
  | indeterminate : BFieldLookup
  | some : Nat → BFieldLookup
  | none : BFieldLookup
deriving DecidableEq

/-- Function `BFieldMember::get`: classify the merged marker's popcount
against κ.  The outer `Option.none` models a panic: the `n_hashes ≤ 16`
assert of `get_raw` failing, or a panic inside `unrank`.  The `% 2^32` is
the `as u32` cast of the unranked `usize`. -/
def memberGet (m : BFieldMember) (hash : Nat × Nat) : Option BFieldLookup :=
  if 16 < m.params.n_hashes then Option.none
  else if m.params.n_marker_bits < popcount (get_raw m hash m.params.n_marker_bits) then
    Option.some BFieldLookup.indeterminate
  else if popcount (get_raw m hash m.params.n_marker_bits) = m.params.n_marker_bits then
    (unrank (get_raw m hash m.params.n_marker_bits)).map
      (fun v => BFieldLookup.some (v % 2 ^ 32))
  else Option.some BFieldLookup.none

/-- The `while new_marker.count_ones() == k` search of `mask_or_insert`,
fuel-bounded.  `Option.none` models the `1 << pos` u128 shift-overflow panic
at `pos ≥ 128`; the fuel (130 at the call site) is never exhausted first,
since `pos` increases by 1 per iteration. -/
def maskLoop (existing k : Nat) : Nat → Nat → Nat → Option Nat
  | new, pos, 0 =>
    if popcount new = k then Option.none else Option.some new
  | new, pos, fuel + 1 =>
    if popcount new = k then
      if 128 ≤ pos then Option.none
      else maskLoop existing k (existing ||| 2 ^ pos) (pos + 1) fuel
    else Option.some new

/-- Function `BFieldMember::mask_or_insert`, returning the flag and the
updated member; `Option.none` models a panic (inside `rank`, the
`n_hashes ≤ 16` assert of `get_raw`, or the marker-search shift). -/
def mask_or_insert (m : BFieldMember) (hash : Nat × Nat) (value : Nat) :
    Option (Bool × BFieldMember) :=
  (rank value m.params.n_marker_bits).bind fun correct =>
  if 16 < m.params.n_hashes then Option.none
  else if m.params.n_marker_bits < popcount (get_raw m hash m.params.n_marker_bits) then
    Option.some (false, m)
  else if popcount (get_raw m hash m.params.n_marker_bits) = m.params.n_marker_bits then
    if get_raw m hash m.params.n_marker_bits = correct then Option.some (true, m)
    else
      (maskLoop (get_raw m hash m.params.n_marker_bits) m.params.n_marker_bits
          (get_raw m hash m.params.n_marker_bits) 0 130).map
        (fun nm => (false, insert_raw m hash nm))
  else Option.some (true, insert_raw m hash correct)

/-- The least `j` with bit `j` of `e` unset, computed with enough fuel for
any `e < 2^128` (bit 128 of such an `e` is unset). -/
def leastUnsetFuel : Nat → Nat → Nat
  | 0, _ => 0
  | fuel + 1, e => if e % 2 = 0 then 0 else leastUnsetFuel fuel (e / 2) + 1

/-- The least unset bit position of `e` (for `e < 2^128`). -/
def leastUnset (e : Nat) : Nat := leastUnsetFuel 129 e

/-- A single mutating member operation, for the C8 monotonicity statement. -/
inductive MemberOp where
  | ins : Nat × Nat → Nat → MemberOp
  | mask : Nat × Nat → Nat → MemberOp

/-- Apply one operation to a member (`insert` or `mask_or_insert`). -/
def applyOp (m : BFieldMember) : MemberOp → Option BFieldMember
  | MemberOp.ins hash value => memberInsert m hash value
  | MemberOp.mask hash value => (mask_or_insert m hash value).map Prod.snd

/-- Apply a sequence of member operations. -/
def applyOps (m : BFieldMember) : List MemberOp → Option BFieldMember
  | [] => Option.some m
  | op :: rest => (applyOp m op).bind fun m2 => applyOps m2 rest

/-- The popcount of the whole bit store, `bitvec.rank(0..size)` (the
`rank` operation of the bit store is modelled from the spec: the number of
set bits of the range). -/
def storeRank (m : BFieldMember) : Nat :=
  ((List.range m.size).filter (fun i => m.bits i)).length

/-- The fresh all-zero member with `size = 128`, `k = 16`, `ν = 64`,
`κ = 8` that claim C9 is about. -/
def memberC9 : BFieldMember :=
  BFieldMember.mk 128 (fun _ => false) (BFieldParams.mk 16 64 8)

/-! ## Cascade model (`src/src/bfield.rs`) -/

/-- Structure `BField`: the ordered members and the read-only flag. -/
structure BField where
  members : List BFieldMember
  read_only : Bool

/-- The member scan of `BField::get`: the first non-`Indeterminate` answer
wins; an empty (or exhausted) member list yields `None`.  The outer `Option`
is panic-freedom, the inner one is the source's `Option<BFieldVal>`. -/
def bfieldGetAux (hash : Nat × Nat) : List BFieldMember → Option (Option Nat)
  | [] => Option.some Option.none
  | m :: rest =>
    (memberGet m hash).bind fun r =>
      match r with
      | BFieldLookup.indeterminate => bfieldGetAux hash rest
      | BFieldLookup.some v => Option.some (Option.some v)
      | BFieldLookup.none => Option.some Option.none

/-- Function `BField::get`. -/
def bfieldGet (bf : BField) (hash : Nat × Nat) : Option (Option Nat) :=
  bfieldGetAux hash bf.members

/-- The `members[..pass]` scan of `BField::insert`: does any earlier member
answer something other than `Indeterminate`?  Stops at the first such
member; `Option.none` when a member's `get` panics first. -/
def anyResolved (hash : Nat × Nat) : List BFieldMember → Option Bool
  | [] => Option.some false
  | m :: rest =>
    (memberGet m hash).bind fun r =>
      match r with
      | BFieldLookup.indeterminate => anyResolved hash rest
      | _ => Option.some true

/-- Function `BField::insert`.  `Option.none` models a debug-assert failure
(read-only cascade, or `pass ≥ members.len()`) or a panic inside a member
operation; otherwise the returned flag is the source's return value and the
`BField` is the updated cascade. -/
def bfieldInsert (bf : BField) (hash : Nat × Nat) (value : Nat) (pass : Nat) :
    Option (Bool × BField) :=
  if bf.read_only then Option.none
  else if h : pass < bf.members.length then
    (anyResolved hash (bf.members.take pass)).bind fun resolved =>
      if resolved then Option.some (false, bf)
      else
        (memberInsert (bf.members.get ⟨pass, h⟩) hash value).map
          (fun m2 => (true, BField.mk (bf.members.set pass m2) bf.read_only))
  else Option.none

/-- Submask order on bit patterns: every set bit of `a` is set in `b`. -/
def Submask (a b : Nat) : Prop := ∀ j, a.testBit j = true → b.testBit j = true

/-! ## Claim C5: the rank table recurrence -/

theorem table_size_le : ∀ k, table_size k ≤ 200000 := by
  intro k; unfold table_size; split <;> [omega; skip]; split <;> omega

theorem table_size_pos : ∀ k, 0 < table_size k := by
  intro k; unfold table_size; split <;> [omega; skip]; split <;> omega

theorem rank_eq_markerTableAux {v k : Nat} (hk1 : 0 < k) (hk9 : k < 10)
    (hv : v < table_size k) : rank v k = markerTableAux k v := by
  have hv2 : ¬ 200000 ≤ v := by have := table_size_le k; omega
  unfold rank marker_table
  simp [hk1, hk9, hv, hv2]

/-- C5 (amended): for every κ ∈ [1, 9], `rank(0, κ) = 2^κ − 1`, and the
recurrence `rank(v, κ) = next_rank(rank(v−1, κ))` holds for all
`0 < v < fill(κ)` where `fill` is the number of table entries the builder
actually fills: 128 for κ = 1, 8128 for κ = 2 and 200000 for κ ≥ 3.
(The original claim asserted the recurrence for all `v < 200000`; it fails
for κ = 1 and κ = 2 beyond the fill bound, see the counterexample.) -/
theorem claim_C5_rank_table (k : Nat) (hk1 : 0 < k) (hk9 : k < 10) :
    rank 0 k = some (2 ^ k - 1) ∧
    ∀ v : Nat, 0 < v → v < table_size k →
      rank v k = (rank (v - 1) k).bind next_rank := by
  constructor
  · rw [rank_eq_markerTableAux hk1 hk9 (table_size_pos k)]
    simp [markerTableAux, Nat.one_shiftLeft]
  · intro v hv hvts
    obtain ⟨w, rfl⟩ : ∃ w, v = w + 1 := ⟨v - 1, by omega⟩
    rw [rank_eq_markerTableAux hk1 hk9 hvts,
        rank_eq_markerTableAux hk1 hk9 (by omega)]
    simp [markerTableAux]

set_option maxRecDepth 40000 in
/-- C5 counterexample: at κ = 1 the table is only filled up to index 127, so
`rank(128, 1)` is the zero initialization while `next_rank(rank(127, 1))`
panics (`rank(127,1) = 2^127`, and `t + 1` overflows the `u128`); the
claimed recurrence `rank(v, κ) = next_rank(rank(v−1, κ))` is false at
κ = 1, v = 128 < 200000. -/
theorem claim_C5_cex :
    rank 128 1 = some 0 ∧ (rank 127 1).bind next_rank = none ∧
    ¬ rank 128 1 = (rank 127 1).bind next_rank := by
  refine ⟨by decide, by decide, by decide⟩

theorem claim_C5_witness :
    rank 0 3 = some (2 ^ 3 - 1) ∧ rank 5 3 = (rank 4 3).bind next_rank :=
  ⟨(claim_C5_rank_table 3 (by decide) (by decide)).1,
   (claim_C5_rank_table 3 (by decide) (by decide)).2 5 (by decide) (by decide)⟩

/-! ## Claim C6: exactness and overflow behavior of `choose` -/

theorem csub_eq_some {a b c : Nat} : csub a b = some c ↔ b ≤ a ∧ c = a - b := by
  unfold csub; split <;> simp_all <;> omega

theorem cmul64_eq_some {a b c : Nat} :
    cmul64 a b = some c ↔ a * b < 2 ^ 64 ∧ c = a * b := by
  unfold cmul64; split <;> simp_all
  exact eq_comm

theorem cmul128_eq_some {a b c : Nat} :
    cmul128 a b = some c ↔ a * b < 2 ^ 128 ∧ c = a * b := by
  unfold cmul128; split <;> simp_all
  exact eq_comm

/-- One loop iteration preserves the cross-multiplied invariant
`num * j! = denom * descFactorial n j`. -/
theorem chooseBigInv_step {n j num denom : Nat}
    (hinv : num * Nat.factorial j = denom * Nat.descFactorial n j) :
    num * (n - j) * Nat.factorial (j + 1) =
      denom * (j + 1) * Nat.descFactorial n (j + 1) := by
  rw [Nat.factorial_succ, Nat.descFactorial_succ]
  calc num * (n - j) * ((j + 1) * Nat.factorial j)
      = (num * Nat.factorial j) * ((n - j) * (j + 1)) := by ring
    _ = (denom * Nat.descFactorial n j) * ((n - j) * (j + 1)) := by rw [hinv]
    _ = denom * (j + 1) * ((n - j) * Nat.descFactorial n j) := by ring

/-- Loop invariant proof for the `k ≥ 8` branch: if the loop returns a value
it is the exact binomial coefficient (and it is below `2^64`). -/
theorem chooseBigLoop_exact (n : Nat) :
    ∀ left j num denom r, 0 < denom →
      num * Nat.factorial j = denom * Nat.descFactorial n j →
      chooseBigLoop n left (j + 1) num denom = some r →
      r = Nat.choose n (j + left) ∧ r < 2 ^ 64 := by
  intro left
  induction left with
  | zero =>
    intro j num denom r hd hinv h
    unfold chooseBigLoop at h
    split at h
    · rename_i hlt
      obtain rfl : num / denom = r := by exact Option.some_injective _ h
      rw [Nat.descFactorial_eq_factorial_mul_choose] at hinv
      have hnum : num = denom * Nat.choose n j := by
        have h2 : num * Nat.factorial j =
            (denom * Nat.choose n j) * Nat.factorial j := by
          rw [hinv]; ring
        have hf : 0 < Nat.factorial j := Nat.factorial_pos j
        exact Nat.eq_of_mul_eq_mul_right hf h2
      constructor
      · rw [hnum, Nat.add_zero, Nat.mul_div_cancel_left _ hd]
      · exact hlt
    · exact absurd h (by simp)
  | succ left ih =>
    intro j num denom r hd hinv h
    unfold chooseBigLoop at h
    rcases Option.bind_eq_some.mp h with ⟨f, hs, h⟩
    obtain ⟨hle, rfl⟩ := csub_eq_some.mp hs
    rcases Option.bind_eq_some.mp h with ⟨num1, hm, h⟩
    obtain ⟨-, rfl⟩ := cmul128_eq_some.mp hm
    have hf : n + 1 - (j + 1) = n - j := by omega
    have hinv1 : num * (n + 1 - (j + 1)) * Nat.factorial (j + 1) =
        denom * (j + 1) * Nat.descFactorial n (j + 1) := by
      rw [hf]; exact chooseBigInv_step hinv
    have hgoal : j + (left + 1) = (j + 1) + left := by omega
    split at h
    · rename_i hmod
      have hdvd : (j + 1) ∣ num * (n + 1 - (j + 1)) :=
        Nat.dvd_of_mod_eq_zero hmod
      obtain ⟨q, hq⟩ := hdvd
      have hq2 : num * (n + 1 - (j + 1)) / (j + 1) = q := by
        rw [hq, Nat.mul_div_cancel_left _ (by omega)]
      have hinv2 : q * Nat.factorial (j + 1) =
          denom * Nat.descFactorial n (j + 1) := by
        have h3 : (j + 1) * (q * Nat.factorial (j + 1)) =
            (j + 1) * (denom * Nat.descFactorial n (j + 1)) := by
          calc (j + 1) * (q * Nat.factorial (j + 1))
              = ((j + 1) * q) * Nat.factorial (j + 1) := by ring
            _ = num * (n + 1 - (j + 1)) * Nat.factorial (j + 1) := by rw [← hq]
            _ = denom * (j + 1) * Nat.descFactorial n (j + 1) := hinv1
            _ = (j + 1) * (denom * Nat.descFactorial n (j + 1)) := by ring
        exact Nat.eq_of_mul_eq_mul_left (by omega) h3
      rw [hq2] at h
      rw [hgoal]
      exact ih (j + 1) q denom r hd hinv2 h
    · rcases Option.bind_eq_some.mp h with ⟨denom1, hd1, h⟩
      obtain ⟨-, rfl⟩ := cmul128_eq_some.mp hd1
      have hd1pos : 0 < denom * (j + 1) := by positivity
      split at h
      · rename_i hmod
        have hdvd : denom * (j + 1) ∣ num * (n + 1 - (j + 1)) :=
          Nat.dvd_of_mod_eq_zero hmod
        obtain ⟨q, hq⟩ := hdvd
        have hq2 : num * (n + 1 - (j + 1)) / (denom * (j + 1)) = q := by
          rw [hq, Nat.mul_div_cancel_left _ hd1pos]
        have hinv2 : q * Nat.factorial (j + 1) =
            1 * Nat.descFactorial n (j + 1) := by
          have h3 : (denom * (j + 1)) * (q * Nat.factorial (j + 1)) =
              (denom * (j + 1)) * (1 * Nat.descFactorial n (j + 1)) := by
            calc (denom * (j + 1)) * (q * Nat.factorial (j + 1))
                = ((denom * (j + 1)) * q) * Nat.factorial (j + 1) := by ring
              _ = num * (n + 1 - (j + 1)) * Nat.factorial (j + 1) := by rw [← hq]
              _ = denom * (j + 1) * Nat.descFactorial n (j + 1) := hinv1
              _ = (denom * (j + 1)) * (1 * Nat.descFactorial n (j + 1)) := by ring
          exact Nat.eq_of_mul_eq_mul_left hd1pos h3
        rw [hq2] at h
        rw [hgoal]
        exact ih (j + 1) q 1 r (by omega) hinv2 h
      · rw [hgoal]
        exact ih (j + 1) (num * (n + 1 - (j + 1))) (denom * (j + 1)) r
          hd1pos hinv1 h

/-- Whenever `choose` returns a value, it is the exact mathematical binomial
coefficient, and (except in the pass-through case `k = 1`, where the result
is the `u64` argument itself) the result is below `2^64`. -/
theorem choose_exact {n k r : Nat} (h : choose n k = some r) :
    r = Nat.choose n k ∧ (r < 2 ^ 64 ∨ r = n) := by
  have hdesc : ∀ j, Nat.choose n j = Nat.descFactorial n j / Nat.factorial j :=
    fun j => Nat.choose_eq_descFactorial_div_factorial n j
  rcases k with _ | _ | _ | _ | _ | _ | _ | _ | k8
  · simp only [choose] at h
    obtain rfl : (1 : Nat) = r := Option.some_injective _ h
    simp [Nat.choose_zero_right]
  · simp only [choose] at h
    obtain rfl : n = r := Option.some_injective _ h
    simp [Nat.choose_one_right]
  · simp only [choose] at h
    rcases Option.bind_eq_some.mp h with ⟨s1, hs1, h⟩
    obtain ⟨h1, rfl⟩ := csub_eq_some.mp hs1
    rcases Option.bind_eq_some.mp h with ⟨p1, hp1, h⟩
    obtain ⟨hb1, rfl⟩ := cmul64_eq_some.mp hp1
    obtain rfl := (Option.some_injective _ h).symm
    refine ⟨?_, Or.inl (Nat.lt_of_le_of_lt (Nat.div_le_self _ _) hb1)⟩
    rw [hdesc 2]
    congr 1
    · simp [Nat.descFactorial]; ring
  · simp only [choose] at h
    rcases Option.bind_eq_some.mp h with ⟨s1, hs1, h⟩
    obtain ⟨h1, rfl⟩ := csub_eq_some.mp hs1
    rcases Option.bind_eq_some.mp h with ⟨s2, hs2, h⟩
    obtain ⟨h2, rfl⟩ := csub_eq_some.mp hs2
    rcases Option.bind_eq_some.mp h with ⟨p1, hp1, h⟩
    obtain ⟨hb1, rfl⟩ := cmul64_eq_some.mp hp1
    rcases Option.bind_eq_some.mp h with ⟨p2, hp2, h⟩
    obtain ⟨hb2, rfl⟩ := cmul64_eq_some.mp hp2
    obtain rfl := (Option.some_injective _ h).symm
    refine ⟨?_, Or.inl (Nat.lt_of_le_of_lt (Nat.div_le_self _ _) hb2)⟩
    rw [hdesc 3]
    congr 1
    · simp [Nat.descFactorial]; ring
  · simp only [choose] at h
    rcases Option.bind_eq_some.mp h with ⟨s1, hs1, h⟩
    obtain ⟨h1, rfl⟩ := csub_eq_some.mp hs1
    rcases Option.bind_eq_some.mp h with ⟨s2, hs2, h⟩
    obtain ⟨h2, rfl⟩ := csub_eq_some.mp hs2
    rcases Option.bind_eq_some.mp h with ⟨s3, hs3, h⟩
    obtain ⟨h3, rfl⟩ := csub_eq_some.mp hs3
    rcases Option.bind_eq_some.mp h with ⟨p1, hp1, h⟩
    obtain ⟨hb1, rfl⟩ := cmul64_eq_some.mp hp1
    rcases Option.bind_eq_some.mp h with ⟨p2, hp2, h⟩
    obtain ⟨hb2, rfl⟩ := cmul64_eq_some.mp hp2
    rcases Option.bind_eq_some.mp h with ⟨p3, hp3, h⟩
    obtain ⟨hb3, rfl⟩ := cmul64_eq_some.mp hp3
    obtain rfl := (Option.some_injective _ h).symm
    refine ⟨?_, Or.inl (Nat.lt_of_le_of_lt (Nat.div_le_self _ _) hb3)⟩
    rw [hdesc 4]
    congr 1
    · simp [Nat.descFactorial]; ring
  · simp only [choose] at h
    rcases Option.bind_eq_some.mp h with ⟨s1, hs1, h⟩
    obtain ⟨h1, rfl⟩ := csub_eq_some.mp hs1
    rcases Option.bind_eq_some.mp h with ⟨s2, hs2, h⟩
    obtain ⟨h2, rfl⟩ := csub_eq_some.mp hs2
    rcases Option.bind_eq_some.mp h with ⟨s3, hs3, h⟩
    obtain ⟨h3, rfl⟩ := csub_eq_some.mp hs3
    rcases Option.bind_eq_some.mp h with ⟨s4, hs4, h⟩
    obtain ⟨h4, rfl⟩ := csub_eq_some.mp hs4
    rcases Option.bind_eq_some.mp h with ⟨p1, hp1, h⟩
    obtain ⟨hb1, rfl⟩ := cmul64_eq_some.mp hp1
    rcases Option.bind_eq_some.mp h with ⟨p2, hp2, h⟩
    obtain ⟨hb2, rfl⟩ := cmul64_eq_some.mp hp2
    rcases Option.bind_eq_some.mp h with ⟨p3, hp3, h⟩
    obtain ⟨hb3, rfl⟩ := cmul64_eq_some.mp hp3
    rcases Option.bind_eq_some.mp h with ⟨p4, hp4, h⟩
    obtain ⟨hb4, rfl⟩ := cmul64_eq_some.mp hp4
    obtain rfl := (Option.some_injective _ h).symm
    refine ⟨?_, Or.inl (Nat.lt_of_le_of_lt (Nat.div_le_self _ _) hb4)⟩
    rw [hdesc 5]
    congr 1
    · simp [Nat.descFactorial]; ring
  · simp only [choose] at h
    rcases Option.bind_eq_some.mp h with ⟨s1, hs1, h⟩
    obtain ⟨h1, rfl⟩ := csub_eq_some.mp hs1
    rcases Option.bind_eq_some.mp h with ⟨s2, hs2, h⟩
    obtain ⟨h2, rfl⟩ := csub_eq_some.mp hs2
    rcases Option.bind_eq_some.mp h with ⟨s3, hs3, h⟩
    obtain ⟨h3, rfl⟩ := csub_eq_some.mp hs3
    rcases Option.bind_eq_some.mp h with ⟨s4, hs4, h⟩
    obtain ⟨h4, rfl⟩ := csub_eq_some.mp hs4
    rcases Option.bind_eq_some.mp h with ⟨s5, hs5, h⟩
    obtain ⟨h5, rfl⟩ := csub_eq_some.mp hs5
    rcases Option.bind_eq_some.mp h with ⟨p1, hp1, h⟩
    obtain ⟨hb1, rfl⟩ := cmul64_eq_some.mp hp1
    rcases Option.bind_eq_some.mp h with ⟨p2, hp2, h⟩
    obtain ⟨hb2, rfl⟩ := cmul64_eq_some.mp hp2
    rcases Option.bind_eq_some.mp h with ⟨p3, hp3, h⟩
    obtain ⟨hb3, rfl⟩ := cmul64_eq_some.mp hp3
    rcases Option.bind_eq_some.mp h with ⟨p4, hp4, h⟩
    obtain ⟨hb4, rfl⟩ := cmul64_eq_some.mp hp4
    rcases Option.bind_eq_some.mp h with ⟨p5, hp5, h⟩
    obtain ⟨hb5, rfl⟩ := cmul64_eq_some.mp hp5
    obtain rfl := (Option.some_injective _ h).symm
    refine ⟨?_, Or.inl (Nat.lt_of_le_of_lt (Nat.div_le_self _ _) hb5)⟩
    rw [hdesc 6]
    congr 1
    · simp [Nat.descFactorial]; ring
  · simp only [choose] at h
    rcases Option.bind_eq_some.mp h with ⟨s1, hs1, h⟩
    obtain ⟨h1, rfl⟩ := csub_eq_some.mp hs1
    rcases Option.bind_eq_some.mp h with ⟨s2, hs2, h⟩
    obtain ⟨h2, rfl⟩ := csub_eq_some.mp hs2
    rcases Option.bind_eq_some.mp h with ⟨s3, hs3, h⟩
    obtain ⟨h3, rfl⟩ := csub_eq_some.mp hs3
    rcases Option.bind_eq_some.mp h with ⟨s4, hs4, h⟩
    obtain ⟨h4, rfl⟩ := csub_eq_some.mp hs4
    rcases Option.bind_eq_some.mp h with ⟨s5, hs5, h⟩
    obtain ⟨h5, rfl⟩ := csub_eq_some.mp hs5
    rcases Option.bind_eq_some.mp h with ⟨s6, hs6, h⟩
    obtain ⟨h6, rfl⟩ := csub_eq_some.mp hs6
    rcases Option.bind_eq_some.mp h with ⟨p1, hp1, h⟩
    obtain ⟨hb1, rfl⟩ := cmul64_eq_some.mp hp1
    rcases Option.bind_eq_some.mp h with ⟨p2, hp2, h⟩
    obtain ⟨hb2, rfl⟩ := cmul64_eq_some.mp hp2
    rcases Option.bind_eq_some.mp h with ⟨p3, hp3, h⟩
    obtain ⟨hb3, rfl⟩ := cmul64_eq_some.mp hp3
    rcases Option.bind_eq_some.mp h with ⟨p4, hp4, h⟩
    obtain ⟨hb4, rfl⟩ := cmul64_eq_some.mp hp4
    rcases Option.bind_eq_some.mp h with ⟨p5, hp5, h⟩
    obtain ⟨hb5, rfl⟩ := cmul64_eq_some.mp hp5
    rcases Option.bind_eq_some.mp h with ⟨p6, hp6, h⟩
    obtain ⟨hb6, rfl⟩ := cmul64_eq_some.mp hp6
    obtain rfl := (Option.some_injective _ h).symm
    refine ⟨?_, Or.inl (Nat.lt_of_le_of_lt (Nat.div_le_self _ _) hb6)⟩
    rw [hdesc 7]
    congr 1
    · simp [Nat.descFactorial]; ring
  · have h8 : choose n (k8 + 8) = chooseBigLoop n (k8 + 8) 1 1 1 := rfl
    rw [h8] at h
    have hres := chooseBigLoop_exact n (k8 + 8) 0 1 1 r (by omega)
      (by simp [Nat.descFactorial]) h
    exact ⟨by simpa using hres.1, Or.inl hres.2⟩

/-- C6 counterexample: `C(700, 7) ≈ 1.6 · 10^16` fits comfortably in 64
bits, but `choose(700, 7)` panics: the `k ≤ 7` closed-form branch overflows
the `u64` numerator product `700 * 699 * ... * 694 ≈ 8.2 · 10^19 > 2^64`.
So "`choose` returns the exact binomial whenever the value fits in 64 bits"
is false at `(n, k) = (700, 7)`. -/
theorem claim_C6_cex :
    choose 700 7 = none ∧ Nat.choose 700 7 < 2 ^ 64 := by
  constructor
  · decide
  · rw [Nat.choose_eq_descFactorial_div_factorial]; decide

/-- C6 (amended): `choose(n, k)` returns the exact binomial coefficient
whenever it returns at all (that is, whenever none of its checked
intermediate operations overflows), and it panics whenever the true result
would reach `2^64` (for `u64` inputs `n`); in particular
`choose(5,2) = 10`, `choose(20,7) = 77520`,
`choose(64,32) = 1832624140942590534`, and `choose(256,20)` panics.
(The original claim additionally asserted a returned value for every input
whose result fits in 64 bits, which fails at `(700, 7)`, see the
counterexample.) -/
theorem claim_C6_choose :
    (∀ n k r : Nat, choose n k = some r → r = Nat.choose n k) ∧
    (∀ n k : Nat, n < 2 ^ 64 → 2 ^ 64 ≤ Nat.choose n k → choose n k = none) ∧
    choose 5 2 = some 10 ∧ choose 20 7 = some 77520 ∧
    choose 64 32 = some 1832624140942590534 ∧ choose 256 20 = none := by
  refine ⟨fun n k r h => (choose_exact h).1, ?_, by decide, by decide,
    by decide, by decide⟩
  intro n k hn hbig
  cases hc : choose n k with
  | none => rfl
  | some r =>
    obtain ⟨he, hb⟩ := choose_exact hc
    rcases hb with hb | hb <;> omega

theorem claim_C6_witness : (10 : Nat) = Nat.choose 5 2 :=
  claim_C6_choose.1 5 2 10 claim_C6_choose.2.2.1

/-! ## Claim C1: machinery — Hamming weight -/

@[simp] theorem pcW_zero : pcW 0 = 0 := by simp [pcW]

theorem pcW_rec {m : Nat} (hm : m ≠ 0) : pcW m = m % 2 + pcW (m / 2) := by
  rw [pcW]; simp [hm]

theorem pcW_pos {m : Nat} (hm : m ≠ 0) : 0 < pcW m := by
  induction m using Nat.strong_induction_on with
  | _ m ih =>
    rw [pcW_rec hm]
    rcases Nat.even_or_odd m with he | ho
    · have h2 : m / 2 ≠ 0 := by
        rcases he with ⟨c, hc⟩; omega
      have := ih (m / 2) (Nat.div_lt_self (Nat.pos_of_ne_zero hm) (by omega)) h2
      omega
    · have : m % 2 = 1 := Nat.odd_iff.mp ho
      omega

theorem pcW_double (x : Nat) : pcW (2 * x) = pcW x := by
  rcases Nat.eq_zero_or_pos x with rfl | hx
  · simp
  · rw [pcW_rec (by omega)]
    simp [Nat.mul_div_cancel_left, Nat.mul_mod_right]

theorem pcW_two_pow_mul (z x : Nat) : pcW (2 ^ z * x) = pcW x := by
  induction z with
  | zero => simp
  | succ z ih =>
    have h : 2 ^ (z + 1) * x = 2 * (2 ^ z * x) := by ring
    rw [h, pcW_double, ih]

theorem pcW_odd {m : Nat} (hm : m % 2 = 1) : pcW m = 1 + pcW (m / 2) := by
  rw [pcW_rec (by omega), hm]

theorem pcW_split {s a c : Nat} (hc : c < 2 ^ s) :
    pcW (2 ^ s * a + c) = pcW a + pcW c := by
  induction s generalizing c with
  | zero =>
    obtain rfl : c = 0 := by simpa using hc
    simp
  | succ s ih =>
    rcases Nat.eq_zero_or_pos (2 ^ (s + 1) * a + c) with h0 | hpos
    · have hpow := Nat.two_pow_pos (s + 1)
      have ha : a = 0 := by
        rcases Nat.eq_zero_or_pos a with rfl | hap
        · rfl
        · nlinarith
      have hc0 : c = 0 := by omega
      simp [ha, hc0]
    · rw [pcW_rec (by omega)]
      have hmod : (2 ^ (s + 1) * a + c) % 2 = c % 2 := by
        have : 2 ^ (s + 1) * a = 2 * (2 ^ s * a) := by ring
        omega
      have hdiv : (2 ^ (s + 1) * a + c) / 2 = 2 ^ s * a + c / 2 := by
        have h1 : 2 ^ (s + 1) * a + c = 2 * (2 ^ s * a) + c := by ring_nf
        omega
      rw [hmod, hdiv, ih (by
        have h2 : 2 ^ (s + 1) = 2 * 2 ^ s := by ring
        omega)]
      rcases Nat.eq_zero_or_pos c with rfl | hcpos
      · simp
      · rw [pcW_rec (m := c) (by omega)]
        omega

theorem pcW_two_pow_sub_one (o : Nat) : pcW (2 ^ o - 1) = o := by
  induction o with
  | zero => simp
  | succ o ih =>
    have h1 : 2 ^ (o + 1) - 1 = 2 * (2 ^ o - 1) + 1 := by
      have := Nat.two_pow_pos o
      have h2 : 2 ^ (o + 1) = 2 * 2 ^ o := by ring
      omega
    rw [h1, pcW_rec (by omega)]
    have h3 : (2 * (2 ^ o - 1) + 1) % 2 = 1 := by omega
    have h4 : (2 * (2 ^ o - 1) + 1) / 2 = 2 ^ o - 1 := by omega
    rw [h3, h4, ih]
    omega

theorem popcountFuel_eq_pcW : ∀ f m, m < 2 ^ f → popcountFuel f m = pcW m := by
  intro f
  induction f with
  | zero =>
    intro m hm
    obtain rfl : m = 0 := by simpa using hm
    simp [popcountFuel]
  | succ f ih =>
    intro m hm
    rcases Nat.eq_zero_or_pos m with rfl | hpos
    · simp [popcountFuel]
    · rw [popcountFuel, pcW_rec (by omega)]
      simp only [Nat.pos_iff_ne_zero.mp hpos, if_false]
      rw [ih (m / 2) (by
        have h2 : 2 ^ (f + 1) = 2 * 2 ^ f := by ring
        omega)]

/-- The code's `popcount` agrees with the mathematical Hamming weight on
`u128` values. -/
theorem popcount_eq_pcW {m : Nat} (hm : m < 2 ^ 128) : popcount m = pcW m :=
  popcountFuel_eq_pcW 128 m hm

/-! ## Claim C1: machinery — trailing zeros -/

theorem tzFuel_two_pow_mul_odd :
    ∀ z f x, x % 2 = 1 → z < f → tzFuel f (2 ^ z * x) = z := by
  intro z
  induction z with
  | zero =>
    intro f x hx hf
    obtain ⟨f, rfl⟩ : ∃ g, f = g + 1 := ⟨f - 1, by omega⟩
    simp [tzFuel, hx]
  | succ z ih =>
    intro f x hx hf
    obtain ⟨f, rfl⟩ : ∃ g, f = g + 1 := ⟨f - 1, by omega⟩
    have heven : (2 ^ (z + 1) * x) % 2 = 0 := by
      have h1 : 2 ^ (z + 1) * x = 2 * (2 ^ z * x) := by ring
      omega
    have hdiv : (2 ^ (z + 1) * x) / 2 = 2 ^ z * x := by
      have h1 : 2 ^ (z + 1) * x = 2 * (2 ^ z * x) := by ring
      omega
    rw [tzFuel]
    simp only [heven]
    rw [if_neg (by omega), hdiv, ih f x hx (by omega)]

/-- On a `u128` value `2^z * x` with `x` odd, `tz` computes `z`. -/
theorem tz_decomp {z x : Nat} (hx : x % 2 = 1) (hlt : 2 ^ z * x < 2 ^ 128) :
    tz (2 ^ z * x) = z := by
  have hxpos : 0 < x := by omega
  have hne : 2 ^ z * x ≠ 0 := by positivity
  have hz : z < 128 := by
    by_contra hz
    have h1 : (2:Nat) ^ 128 ≤ 2 ^ z := Nat.pow_le_pow_right (by omega) (by omega)
    nlinarith
  rw [tz, if_neg hne]
  exact tzFuel_two_pow_mul_odd z 128 x hx hz

/-! ## Claim C1: machinery — binary decompositions -/

theorem exists_odd_decomp : ∀ m : Nat, m ≠ 0 → ∃ z x, m = 2 ^ z * x ∧ x % 2 = 1 := by
  intro m
  induction m using Nat.strong_induction_on with
  | _ m ih =>
    intro hm
    rcases Nat.even_or_odd m with he | ho
    · have h2 : m / 2 ≠ 0 := by
        rcases he with ⟨c, hc⟩; omega
      obtain ⟨z, x, hzx, hx⟩ :=
        ih (m / 2) (Nat.div_lt_self (Nat.pos_of_ne_zero hm) (by omega)) h2
      refine ⟨z + 1, x, ?_, hx⟩
      have h3 : 2 ^ (z + 1) * x = 2 * (2 ^ z * x) := by ring
      rcases he with ⟨c, hc⟩
      omega
    · exact ⟨0, m, by simp, Nat.odd_iff.mp ho⟩

theorem odd_block_decomp : ∀ x : Nat, x % 2 = 1 →
    ∃ o h, 1 ≤ o ∧ x = (2 ^ o - 1) + 2 ^ (o + 1) * h := by
  intro x
  induction x using Nat.strong_induction_on with
  | _ x ih =>
    intro hx
    have hxpos : 0 < x := by omega
    set y := x / 2 with hy
    have hxy : x = 2 * y + 1 := by omega
    rcases Nat.even_or_odd y with he | ho
    · refine ⟨1, y / 2, by omega, ?_⟩
      rcases he with ⟨c, hc⟩
      have hp1 : (2:Nat) ^ 1 = 2 := by norm_num
      have hp2 : (2:Nat) ^ (1 + 1) = 4 := by norm_num
      omega
    · have hy1 : y % 2 = 1 := Nat.odd_iff.mp ho
      have hylt : y < x := by omega
      obtain ⟨o, h, ho1, hoh⟩ := ih y hylt hy1
      refine ⟨o + 1, h, by omega, ?_⟩
      have h1 : (2:Nat) ^ (o + 1) = 2 * 2 ^ o := by ring
      have h3 : (2:Nat) ^ (o + 1 + 1) * h = 2 * (2 ^ (o + 1) * h) := by ring
      have := Nat.two_pow_pos o
      omega

/-- Every nonzero number splits as a low run of `o ≥ 1` ones at offset `z`,
a zero bit, and an arbitrary high part `h`. -/
theorem marker_decomp {m : Nat} (hm : m ≠ 0) :
    ∃ z o h, 1 ≤ o ∧ m = 2 ^ z * ((2 ^ o - 1) + 2 ^ (o + 1) * h) := by
  obtain ⟨z, x, rfl, hx⟩ := exists_odd_decomp m hm
  obtain ⟨o, h, ho, hoh⟩ := odd_block_decomp x hx
  exact ⟨z, o, h, ho, by rw [← hoh]⟩

/-! ## Claim C1: machinery — bit positions and the combinatorial value -/

@[simp] theorem bitsList_zero : bitsList 0 = [] := by simp [bitsList]

theorem bitsList_odd {m : Nat} (hm : m % 2 = 1) :
    bitsList m = 0 :: (bitsList (m / 2)).map (· + 1) := by
  rw [bitsList]
  simp [hm, show m ≠ 0 by omega]

theorem bitsList_double (x : Nat) : bitsList (2 * x) = (bitsList x).map (· + 1) := by
  rcases Nat.eq_zero_or_pos x with rfl | hx
  · simp
  · rw [bitsList]
    have h1 : ¬ (2 * x = 0) := by omega
    have h2 : ¬ (2 * x % 2 = 1) := by omega
    simp [h1, h2, Nat.mul_div_cancel_left x (by omega : 0 < 2)]

theorem bitsList_two_pow_mul (z x : Nat) :
    bitsList (2 ^ z * x) = (bitsList x).map (· + z) := by
  induction z with
  | zero => simp
  | succ z ih =>
    have h : 2 ^ (z + 1) * x = 2 * (2 ^ z * x) := by ring
    rw [h, bitsList_double, ih, List.map_map]
    apply List.map_congr_left
    intro a _
    show a + z + 1 = a + (z + 1)
    omega

theorem bitsList_odd_block (h : Nat) :
    ∀ o, bitsList ((2 ^ o - 1) + 2 ^ (o + 1) * h) =
      List.range o ++ (bitsList h).map (· + (o + 1)) := by
  intro o
  induction o with
  | zero =>
    have h1 : (2 ^ 0 - 1) + 2 ^ (0 + 1) * h = 2 * h := by norm_num
    rw [h1, bitsList_double]
    simp
  | succ o ih =>
    have hp1 : (2:Nat) ^ (o + 1) = 2 * 2 ^ o := by ring
    have hp2 : (2:Nat) ^ (o + 1 + 1) * h = 2 * (2 ^ (o + 1) * h) := by ring
    have hpo := Nat.two_pow_pos o
    set m := (2 ^ (o + 1) - 1) + 2 ^ (o + 1 + 1) * h with hm
    have hmodd : m % 2 = 1 := by omega
    have hdiv : m / 2 = (2 ^ o - 1) + 2 ^ (o + 1) * h := by omega
    have hmap1 : (List.range o).map Nat.succ = (List.range o).map (· + 1) :=
      List.map_congr_left fun a _ => by simp
    have hmap2 : ((bitsList h).map (· + (o + 1))).map (· + 1) =
        (bitsList h).map (· + (o + 1 + 1)) := by
      rw [List.map_map]
      exact List.map_congr_left fun a _ => by
        show a + (o + 1) + 1 = a + (o + 1 + 1)
        omega
    rw [bitsList_odd hmodd, hdiv, ih, List.map_append, hmap2,
      List.range_succ_eq_map, hmap1, List.cons_append]

theorem bitsList_length : ∀ m, (bitsList m).length = pcW m := by
  intro m
  induction m using Nat.strong_induction_on with
  | _ m ih =>
    rcases Nat.eq_zero_or_pos m with rfl | hm
    · simp
    · have hrec := ih (m / 2) (Nat.div_lt_self hm (by omega))
      rcases Nat.even_or_odd m with he | ho
      · have h2 : m % 2 = 0 := Nat.even_iff.mp he
        have h3 : m = 2 * (m / 2) := by omega
        rw [h3, bitsList_double, pcW_double] at *
        simp [hrec]
      · have h2 : m % 2 = 1 := Nat.odd_iff.mp ho
        rw [bitsList_odd h2, pcW_odd h2]
        simp [hrec]
        omega

theorem bitsList_top {B r : Nat} (hr : r < 2 ^ B) :
    bitsList (2 ^ B + r) = bitsList r ++ [B] := by
  induction B generalizing r with
  | zero =>
    obtain rfl : r = 0 := by simpa using hr
    have h1 : (2:Nat) ^ 0 + 0 = 2 * 0 + 1 := by norm_num
    rw [h1, bitsList_odd (by omega)]
    simp
  | succ B ih =>
    have hp1 : (2:Nat) ^ (B + 1) = 2 * 2 ^ B := by ring
    rcases Nat.even_or_odd r with he | ho
    · have h2 : r % 2 = 0 := Nat.even_iff.mp he
      have h3 : 2 ^ (B + 1) + r = 2 * (2 ^ B + r / 2) := by omega
      have h4 : r = 2 * (r / 2) := by omega
      rw [h3, bitsList_double, ih (by omega)]
      conv_rhs => rw [h4]
      rw [bitsList_double, List.map_append]
      simp
    · have h2 : r % 2 = 1 := Nat.odd_iff.mp ho
      have h3 : (2 ^ (B + 1) + r) % 2 = 1 := by omega
      have h4 : (2 ^ (B + 1) + r) / 2 = 2 ^ B + r / 2 := by omega
      rw [bitsList_odd h3, h4, ih (by omega), bitsList_odd h2]
      simp

theorem sumChoose_append (l1 l2 : List Nat) :
    ∀ i, sumChoose (l1 ++ l2) i = sumChoose l1 i + sumChoose l2 (i + l1.length) := by
  induction l1 with
  | nil => intro i; simp [sumChoose]
  | cons c rest ih =>
    intro i
    simp only [List.cons_append, sumChoose, List.append_eq]
    rw [ih (i + 1)]
    simp only [List.length_cons]
    have h1 : i + 1 + rest.length = i + (rest.length + 1) := by omega
    rw [h1]
    omega

theorem sumChoose_range_zero : ∀ n, sumChoose (List.range n) 1 = 0 := by
  intro n
  induction n with
  | zero => simp [sumChoose]
  | succ n ih =>
    rw [List.range_succ, sumChoose_append, ih]
    simp [sumChoose, Nat.choose_eq_zero_of_lt (show n < 1 + n by omega)]

theorem sumChoose_range_map (z : Nat) :
    ∀ o, sumChoose ((List.range o).map (· + z)) 1 + 1 = Nat.choose (z + o) o := by
  intro o
  induction o with
  | zero => simp [sumChoose]
  | succ o ih =>
    rw [List.range_succ, List.map_append, sumChoose_append]
    simp only [List.length_map, List.length_range, List.map_cons, List.map_nil,
      sumChoose]
    have hr : z + (o + 1) = (z + o) + 1 := by omega
    rw [hr, Nat.choose_succ_succ' (z + o) o]
    have hterm : Nat.choose (o + z) (1 + o) = Nat.choose (z + o) (o + 1) := by
      congr 1 <;> omega
    omega

/-! ## Claim C1: machinery — the `next_rank` bit manipulation -/

/-- For odd `x`, `(2^z x) | (2^z x - 1)` fills the `z` low bits:
the value is `2^z x + (2^z − 1)`. -/
theorem or_pred_odd {z x : Nat} (hx : x % 2 = 1) :
    (2 ^ z * x) ||| (2 ^ z * x - 1) = 2 ^ z * x + (2 ^ z - 1) := by
  obtain ⟨w, rfl⟩ : ∃ w, x = 2 * w + 1 := ⟨x / 2, by omega⟩
  have hpz := Nat.two_pow_pos z
  have hsub : 2 ^ z * (2 * w + 1) - 1 = 2 ^ z * (2 * w) + (2 ^ z - 1) := by
    have h1 : 2 ^ z * (2 * w + 1) = 2 ^ z * (2 * w) + 2 ^ z := by ring
    omega
  apply Nat.eq_of_testBit_eq
  intro j
  rw [Nat.testBit_lor, hsub]
  rw [Nat.testBit_mul_pow_two_add _ (show 2 ^ z - 1 < 2 ^ z by omega),
    Nat.testBit_mul_pow_two_add _ (show 2 ^ z - 1 < 2 ^ z by omega),
    Nat.testBit_mul_pow_two]
  rcases Nat.lt_or_ge j z with hj | hj
  · simp [hj, Nat.not_le_of_lt hj]
  · simp only [if_neg (Nat.not_lt_of_le hj), ge_iff_le, hj, decide_True,
      Bool.true_and]
    rcases Nat.eq_zero_or_pos (j - z) with hz0 | hzpos
    · rw [hz0]
      simp only [Nat.testBit_zero]
      have h1 : (2 * w + 1) % 2 = 1 := by omega
      have h2 : (2 * w) % 2 = 0 := by omega
      simp [h1, h2]
    · obtain ⟨i, hi⟩ : ∃ i, j - z = i + 1 := ⟨j - z - 1, by omega⟩
      rw [hi, Nat.testBit_add_one, Nat.testBit_add_one]
      have h1 : (2 * w + 1) / 2 = w := by omega
      have h2 : (2 * w) / 2 = w := by omega
      rw [h1, h2]
      simp

/-- The lowest zero bit of `t = 2^(z+o+1) h + (2^(z+o) − 1)` (a `u128`
value), extracted by `!t & (t + 1)`, is the single bit `2^(z+o)`. -/
theorem low_zero_bit_eq {z o h : Nat}
    (hbound : 2 ^ (z + o + 1) * h + 2 ^ (z + o) < 2 ^ 128) :
    ((2 ^ 128 - 1) ^^^ (2 ^ (z + o + 1) * h + (2 ^ (z + o) - 1))) &&&
      (2 ^ (z + o + 1) * h + (2 ^ (z + o) - 1) + 1) = 2 ^ (z + o) := by
  have hpzo := Nat.two_pow_pos (z + o)
  have hpzo1 := Nat.two_pow_pos (z + o + 1)
  have hzo128 : z + o < 128 := by
    by_contra hc
    have h1 : (2:Nat) ^ 128 ≤ 2 ^ (z + o) := Nat.pow_le_pow_right (by omega) (by omega)
    omega
  have hh : h < 2 ^ (127 - (z + o)) := by
    by_contra hc
    have h1 : (2:Nat) ^ (z + o + 1) * 2 ^ (127 - (z + o)) ≤ 2 ^ (z + o + 1) * h :=
      Nat.mul_le_mul_left _ (by omega)
    have h2 : (2:Nat) ^ (z + o + 1) * 2 ^ (127 - (z + o)) = 2 ^ 128 := by
      rw [← pow_add]
      congr 1
      omega
    omega
  have hsucc : 2 ^ (z + o + 1) * h + (2 ^ (z + o) - 1) + 1 =
      2 ^ (z + o) * (2 * h + 1) := by
    have h1 : (2:Nat) ^ (z + o + 1) * h = 2 ^ (z + o) * (2 * h) := by ring
    have h2 : (2:Nat) ^ (z + o) * (2 * h + 1) = 2 ^ (z + o) * (2 * h) + 2 ^ (z + o) := by
      ring
    omega
  have hlow : 2 ^ (z + o) - 1 < 2 ^ (z + o + 1) := by
    have h1 : (2:Nat) ^ (z + o + 1) = 2 ^ (z + o) * 2 := by ring
    omega
  apply Nat.eq_of_testBit_eq
  intro j
  have htbit : (2 ^ (z + o + 1) * h + (2 ^ (z + o) - 1)).testBit j =
      if j < z + o + 1 then decide (j < z + o) else h.testBit (j - (z + o + 1)) := by
    rw [Nat.testBit_mul_pow_two_add _ hlow, Nat.testBit_two_pow_sub_one]
  have hsbit : (2 ^ (z + o + 1) * h + (2 ^ (z + o) - 1) + 1).testBit j =
      (decide (z + o ≤ j) && (2 * h + 1).testBit (j - (z + o))) := by
    rw [hsucc, Nat.testBit_mul_pow_two]
  have hmask : (2 ^ 128 - 1).testBit j = decide (j < 128) :=
    Nat.testBit_two_pow_sub_one 128 j
  rw [Nat.testBit_and, Nat.testBit_xor, hmask, htbit, hsbit, Nat.testBit_two_pow]
  rcases Nat.lt_or_ge j (z + o) with hj | hj
  · simp [show ¬ (z + o ≤ j) by omega, show z + o ≠ j by omega]
  · rcases Nat.eq_or_lt_of_le hj with heq | hj2
    · subst heq
      simp [show z + o < z + o + 1 by omega, show ¬ (z + o < z + o) by omega,
        hzo128, Nat.testBit_zero, show (2 * h + 1) % 2 = 1 by omega]
    · have hj1 : ¬ (j < z + o + 1) := by omega
      obtain ⟨i, hi⟩ : ∃ i, j - (z + o) = i + 1 := ⟨j - (z + o) - 1, by omega⟩
      have hidx : j - (z + o + 1) = i := by omega
      rw [if_neg hj1, hi, hidx, Nat.testBit_add_one]
      have h1 : (2 * h + 1) / 2 = h := by omega
      rw [h1]
      rcases Nat.lt_or_ge j 128 with hj128 | hj128
      · cases hb : h.testBit i <;>
          simp [hb, hj128, show z + o ≤ j by omega, show z + o ≠ j by omega]
      · have ht2 : h.testBit i = false := by
          apply Nat.testBit_lt_two_pow
          calc h < 2 ^ (127 - (z + o)) := hh
            _ ≤ 2 ^ i := Nat.pow_le_pow_right (by omega) (by omega)
        rw [ht2]
        simp [show ¬ (j < 128) by omega, show z + o ≠ j by omega]

/-- Shifting: `(2^(z+o) − 1) >>> (z + 1) = 2^(o−1) − 1` for `o ≥ 1`. -/
theorem shift_block {z o : Nat} (ho : 1 ≤ o) :
    (2 ^ (z + o) - 1) >>> (z + 1) = 2 ^ (o - 1) - 1 := by
  rw [Nat.shiftRight_eq_div_pow]
  have hpz1 := Nat.two_pow_pos (z + 1)
  obtain ⟨q, hq⟩ : ∃ q, 2 ^ (o - 1) = q + 1 :=
    ⟨2 ^ (o - 1) - 1, by have := Nat.two_pow_pos (o - 1); omega⟩
  have h1 : (2:Nat) ^ (z + 1) * 2 ^ (o - 1) = 2 ^ (z + o) := by
    rw [← pow_add]
    congr 1
    omega
  have hsplit : 2 ^ (z + o) - 1 = 2 ^ (z + 1) * q + (2 ^ (z + 1) - 1) := by
    have h3 : (2:Nat) ^ (z + 1) * (q + 1) = 2 ^ (z + 1) * q + 2 ^ (z + 1) := by ring
    rw [hq] at h1
    omega
  rw [hsplit, Nat.mul_add_div hpz1, Nat.div_eq_of_lt (by omega)]
  omega

/-- Arithmetic form of the decomposed marker. -/
theorem mform_eq (z o h : Nat) (ho : 1 ≤ o) :
    2 ^ z * ((2 ^ o - 1) + 2 ^ (o + 1) * h) =
      2 ^ (z + o + 1) * h + (2 ^ (z + o) - 2 ^ z) := by
  obtain ⟨q, hq⟩ : ∃ q, 2 ^ o = q + 1 :=
    ⟨2 ^ o - 1, by have := Nat.two_pow_pos o; omega⟩
  have h2 : (2:Nat) ^ z * (2 ^ (o + 1) * h) = 2 ^ (z + o + 1) * h := by
    rw [← mul_assoc, ← pow_add, show z + (o + 1) = z + o + 1 from by omega]
  have h5 : (2:Nat) ^ (z + o) = 2 ^ z * (q + 1) := by
    rw [← hq, ← pow_add]
  calc 2 ^ z * ((2 ^ o - 1) + 2 ^ (o + 1) * h)
      = 2 ^ z * (q + 2 ^ (o + 1) * h) := by
        rw [hq]
        have h7 : q + 1 - 1 + 2 ^ (o + 1) * h = q + 2 ^ (o + 1) * h := by omega
        rw [h7]
    _ = 2 ^ z * q + 2 ^ z * (2 ^ (o + 1) * h) := by ring
    _ = 2 ^ (z + o + 1) * h + (2 ^ (z + o) - 2 ^ z) := by
        rw [h2, h5]
        have h6 : (2:Nat) ^ z * (q + 1) = 2 ^ z * q + 2 ^ z := by ring
        omega

/-- On a decomposed `u128` marker (low run of `o ≥ 1` ones at offset `z`,
high part `h`) that is not the top-packed maximum, `next_rank` succeeds, and
its value moves the lowest run up by one: `2^(z+o) (2h+1) + (2^(o−1) − 1)`. -/
theorem next_rank_eq {z o h : Nat} (ho : 1 ≤ o)
    (hbound : 2 ^ (z + o + 1) * h + 2 ^ (z + o) < 2 ^ 128) :
    next_rank (2 ^ z * ((2 ^ o - 1) + 2 ^ (o + 1) * h)) =
      some (2 ^ (z + o) * (2 * h + 1) + (2 ^ (o - 1) - 1)) ∧
    nextRankW (2 ^ z * ((2 ^ o - 1) + 2 ^ (o + 1) * h)) =
      2 ^ (z + o) * (2 * h + 1) + (2 ^ (o - 1) - 1) := by
  have hpz := Nat.two_pow_pos z
  have hpo := Nat.two_pow_pos o
  have hpzo := Nat.two_pow_pos (z + o)
  have hle : (2:Nat) ^ z ≤ 2 ^ (z + o) := Nat.pow_le_pow_right (by omega) (by omega)
  set m := 2 ^ z * ((2 ^ o - 1) + 2 ^ (o + 1) * h) with hmdef
  have hxodd : ((2 ^ o - 1) + 2 ^ (o + 1) * h) % 2 = 1 := by
    have h1 : (2:Nat) ^ (o + 1) * h = 2 * (2 ^ o * h) := by ring
    have h2 : (2:Nat) ^ o % 2 = 0 := by
      obtain ⟨w, rfl⟩ : ∃ w, o = w + 1 := ⟨o - 1, by omega⟩
      have h3 : (2:Nat) ^ (w + 1) = 2 * 2 ^ w := by ring
      omega
    omega
  have hmarith : m = 2 ^ (z + o + 1) * h + (2 ^ (z + o) - 2 ^ z) :=
    mform_eq z o h ho
  have hxpos : 0 < (2 ^ o - 1) + 2 ^ (o + 1) * h := by omega
  have hmpos : 0 < m := by
    rw [hmdef]
    exact Nat.mul_pos hpz hxpos
  have hmne : m ≠ 0 := by omega
  have hmlt : m < 2 ^ 128 := by omega
  have htz : tz m = z := by
    rw [hmdef]
    exact tz_decomp hxodd (by rw [← hmdef]; exact hmlt)
  have ht : m ||| (m - 1) = 2 ^ (z + o + 1) * h + (2 ^ (z + o) - 1) := by
    rw [hmdef, or_pred_odd hxodd, ← hmdef, hmarith]
    omega
  have htsucc : 2 ^ (z + o + 1) * h + (2 ^ (z + o) - 1) + 1 =
      2 ^ (z + o + 1) * h + 2 ^ (z + o) := by omega
  have hlz := low_zero_bit_eq (z := z) (o := o) (h := h) hbound
  rw [htsucc] at hlz
  have hfin : 2 ^ (z + o + 1) * h + 2 ^ (z + o) =
      2 ^ (z + o) * (2 * h + 1) := by
    have h1 : (2:Nat) ^ (z + o + 1) * h = 2 ^ (z + o) * (2 * h) := by ring
    have h2 : (2:Nat) ^ (z + o) * (2 * h + 1) = 2 ^ (z + o) * (2 * h) + 2 ^ (z + o) := by
      ring
    omega
  have hor : 2 ^ (z + o) * (2 * h + 1) ||| (2 ^ (o - 1) - 1) =
      2 ^ (z + o) * (2 * h + 1) + (2 ^ (o - 1) - 1) := by
    rw [← Nat.mul_add_lt_is_or]
    have h1 : (2:Nat) ^ (o - 1) ≤ 2 ^ (z + o) := Nat.pow_le_pow_right (by omega) (by omega)
    omega
  constructor
  · rw [next_rank, if_neg hmne, ht, htsucc, if_neg (by omega), hlz,
      if_neg (by omega), htz, shift_block ho, hfin, hor]
  · rw [nextRankW, ht, htsucc, hlz, htz, shift_block ho, hfin, hor]

/-- Weight and combinatorial value of the decomposed marker. -/
theorem mform_pcW (z o h : Nat) (ho : 1 ≤ o) :
    pcW (2 ^ z * ((2 ^ o - 1) + 2 ^ (o + 1) * h)) = o + pcW h := by
  rw [pcW_two_pow_mul]
  have h1 : (2 ^ o - 1) + 2 ^ (o + 1) * h = 2 ^ (o + 1) * h + (2 ^ o - 1) := by omega
  rw [h1, pcW_split (by
    have h2 : (2:Nat) ^ (o + 1) = 2 ^ o * 2 := by ring
    have := Nat.two_pow_pos o
    omega), pcW_two_pow_sub_one]
  omega

theorem mform_unrankM (z o h : Nat) :
    unrankM (2 ^ z * ((2 ^ o - 1) + 2 ^ (o + 1) * h)) + 1 =
      Nat.choose (z + o) o +
        sumChoose ((bitsList h).map (· + (z + o + 1))) (1 + o) := by
  unfold unrankM
  rw [bitsList_two_pow_mul, bitsList_odd_block, List.map_append, List.map_map]
  have hmap : ((bitsList h).map ((· + z) ∘ (· + (o + 1)))) =
      (bitsList h).map (· + (z + o + 1)) := by
    apply List.map_congr_left
    intro a _
    show a + (o + 1) + z = a + (z + o + 1)
    omega
  rw [hmap, sumChoose_append]
  simp only [List.length_map, List.length_range]
  have := sumChoose_range_map z o
  omega

/-- Weight and combinatorial value of the `next_rank` successor. -/
theorem nform_pcW (z o h : Nat) (ho : 1 ≤ o) :
    pcW (2 ^ (z + o) * (2 * h + 1) + (2 ^ (o - 1) - 1)) = o + pcW h := by
  rw [pcW_split (by
    have h1 : (2:Nat) ^ (o - 1) ≤ 2 ^ (z + o) :=
      Nat.pow_le_pow_right (by omega) (by omega)
    have := Nat.two_pow_pos (o - 1)
    omega), pcW_two_pow_sub_one, pcW_odd (by omega)]
  have h2 : (2 * h + 1) / 2 = h := by omega
  rw [h2]
  omega

theorem nform_unrankM (z o h : Nat) (ho : 1 ≤ o) :
    unrankM (2 ^ (z + o) * (2 * h + 1) + (2 ^ (o - 1) - 1)) =
      Nat.choose (z + o) o +
        sumChoose ((bitsList h).map (· + (z + o + 1))) (1 + o) := by
  unfold unrankM
  have hform : 2 ^ (z + o) * (2 * h + 1) + (2 ^ (o - 1) - 1) =
      (2 ^ (o - 1) - 1) + 2 ^ ((o - 1) + 1) * (2 ^ z * (2 * h + 1)) := by
    have h1 : (2:Nat) ^ ((o - 1) + 1) * (2 ^ z * (2 * h + 1)) =
        2 ^ (z + o) * (2 * h + 1) := by
      rw [← mul_assoc, ← pow_add]
      congr 2
      omega
    omega
  rw [hform, bitsList_odd_block, bitsList_two_pow_mul, bitsList_odd (by omega)]
  have h2 : (2 * h + 1) / 2 = h := by omega
  rw [h2]
  rw [sumChoose_append]
  simp only [List.length_range, List.map_cons, List.map_map, sumChoose]
  rw [sumChoose_range_zero]
  have hmap : (bitsList h).map
        ((fun x => x + (o - 1 + 1)) ∘ (fun x => x + z) ∘ fun x => x + 1) =
      (bitsList h).map (fun x => x + (z + o + 1)) :=
    List.map_congr_left fun a _ => by
      show a + 1 + z + (o - 1 + 1) = a + (z + o + 1)
      omega
  rw [hmap]
  have hchoose : Nat.choose (0 + z + (o - 1 + 1)) (1 + (o - 1)) =
      Nat.choose (z + o) o := by
    congr 1 <;> omega
  rw [hchoose]
  have hidx : 1 + (o - 1) + 1 = 1 + o := by omega
  rw [hidx]
  omega

/-! ## Claim C1: machinery — lower bound and the successor chain -/

theorem pcW_one : pcW 1 = 1 := by
  rw [pcW_rec (by omega)]
  norm_num [pcW_zero]

/-- A marker with a set bit at position `≥ c` decodes to a value of at least
`C(c, weight)`: the combinatorial number system never assigns small values
to wide markers. -/
theorem unrankM_lower_bound {c m : Nat} (hm : 2 ^ c ≤ m) :
    Nat.choose c (pcW m) ≤ unrankM m := by
  have hne : m ≠ 0 := by have := Nat.two_pow_pos c; omega
  set B := Nat.log2 m with hBdef
  have hB1 : 2 ^ B ≤ m := Nat.log2_self_le hne
  have hB2 : m < 2 ^ (B + 1) := Nat.lt_log2_self
  have hcB : c ≤ B := by
    by_contra hc
    have h1 : (2:Nat) ^ (B + 1) ≤ 2 ^ c := Nat.pow_le_pow_right (by omega) (by omega)
    omega
  have hp2 : (2:Nat) ^ (B + 1) = 2 * 2 ^ B := by ring
  have hr : m - 2 ^ B < 2 ^ B := by omega
  have hm2 : m = 2 ^ B * 1 + (m - 2 ^ B) := by omega
  have hpcm : pcW m = 1 + pcW (m - 2 ^ B) := by
    have hsp := pcW_split (a := 1) hr
    rw [← hm2, pcW_one] at hsp
    exact hsp
  have hm3 : m = 2 ^ B + (m - 2 ^ B) := by omega
  have hbl : bitsList m = bitsList (m - 2 ^ B) ++ [B] := by
    have htop := bitsList_top hr
    rw [← hm3] at htop
    exact htop
  rw [unrankM, hbl, sumChoose_append, bitsList_length]
  simp only [sumChoose]
  have hterm : Nat.choose c (pcW m) ≤ Nat.choose B (1 + pcW (m - 2 ^ B)) := by
    rw [hpcm]
    exact Nat.choose_le_choose _ hcB
  omega

/-- The low block of the decomposition is odd. -/
theorem block_odd {o : Nat} (h : Nat) (ho : 1 ≤ o) :
    ((2 ^ o - 1) + 2 ^ (o + 1) * h) % 2 = 1 := by
  have hpo := Nat.two_pow_pos o
  have h1 : (2:Nat) ^ (o + 1) * h = 2 * (2 ^ o * h) := by ring
  have h2 : (2:Nat) ^ o % 2 = 0 := by
    obtain ⟨w, rfl⟩ : ∃ w, o = w + 1 := ⟨o - 1, by omega⟩
    have h3 : (2:Nat) ^ (w + 1) = 2 * 2 ^ w := by ring
    omega
  omega

/-- The marker-table build chain: for `v < C(128, k)` the `v`-th entry is
defined, has weight `k`, and decodes to `v`. -/
theorem markerTableAux_good (k : Nat) (hk : 1 ≤ k) :
    ∀ v, v < Nat.choose 128 k →
      ∃ m, markerTableAux k v = some m ∧ pcW m = k ∧ unrankM m = v := by
  intro v
  induction v with
  | zero =>
    intro _
    refine ⟨2 ^ k - 1, ?_, ?_, ?_⟩
    · rw [markerTableAux, Nat.one_shiftLeft]
    · exact pcW_two_pow_sub_one k
    · have hb : bitsList (2 ^ k - 1) = List.range k := by
        have := bitsList_odd_block 0 k
        simpa using this
      rw [unrankM, hb, sumChoose_range_zero]
  | succ v ih =>
    intro hv
    obtain ⟨m, hsome, hpc, hval⟩ := ih (by omega)
    have hmne : m ≠ 0 := by
      intro h0
      rw [h0, pcW_zero] at hpc
      omega
    obtain ⟨z, o, h, ho, hdec⟩ := marker_decomp hmne
    have hkeq : k = o + pcW h := by
      rw [← hpc, hdec, mform_pcW _ _ _ ho]
    have hmlt : m < 2 ^ 128 := by
      by_contra hc
      have h1 := unrankM_lower_bound (c := 128) (m := m) (by omega)
      rw [hpc, hval] at h1
      omega
    have hxodd := block_odd (o := o) h ho
    have hxpos : 0 < (2 ^ o - 1) + 2 ^ (o + 1) * h := by omega
    have hpz := Nat.two_pow_pos z
    have hpzo := Nat.two_pow_pos (z + o)
    have hzle : (2:Nat) ^ z ≤ m := by
      rw [hdec]
      calc (2:Nat) ^ z = 2 ^ z * 1 := by ring
        _ ≤ 2 ^ z * ((2 ^ o - 1) + 2 ^ (o + 1) * h) :=
            Nat.mul_le_mul_left _ (by omega)
    have hz128 : z ≤ 128 := by
      by_contra hc
      have h1 : (2:Nat) ^ 128 ≤ 2 ^ z := Nat.pow_le_pow_right (by omega) (by omega)
      omega
    have hmarith : m = 2 ^ (z + o + 1) * h + (2 ^ (z + o) - 2 ^ z) := by
      rw [hdec]
      exact mform_eq z o h ho
    -- a multiple of 2^z below 2^128 stays ≤ 2^128 − 2^z
    have hSle : 2 ^ (z + o + 1) * h + 2 ^ (z + o) ≤ 2 ^ 128 := by
      have hW : (2:Nat) ^ z * 2 ^ (128 - z) = 2 ^ 128 := by
        rw [← pow_add]
        congr 1
        omega
      have hxlt : (2 ^ o - 1) + 2 ^ (o + 1) * h < 2 ^ (128 - z) := by
        by_contra hc
        have h1 : (2:Nat) ^ z * 2 ^ (128 - z) ≤
            2 ^ z * ((2 ^ o - 1) + 2 ^ (o + 1) * h) :=
          Nat.mul_le_mul_left _ (by omega)
        rw [hW, ← hdec] at h1
        omega
      have h2 : 2 ^ z * (((2 ^ o - 1) + 2 ^ (o + 1) * h) + 1) ≤ 2 ^ 128 := by
        rw [← hW]
        exact Nat.mul_le_mul_left _ (by omega)
      have h3 : 2 ^ z * (((2 ^ o - 1) + 2 ^ (o + 1) * h) + 1) =
          m + 2 ^ z := by
        rw [hdec]
        ring
      have hPle : (2:Nat) ^ z ≤ 2 ^ (z + o) :=
        Nat.pow_le_pow_right (by omega) (by omega)
      omega
    have hbound : 2 ^ (z + o + 1) * h + 2 ^ (z + o) < 2 ^ 128 := by
      rcases Nat.lt_or_ge (2 ^ (z + o + 1) * h + 2 ^ (z + o)) (2 ^ 128) with hlt | hge
      · exact hlt
      -- equality: m would be the top-packed maximum, value C(128,k) − 1
      · exfalso
        have heq : 2 ^ (z + o + 1) * h + 2 ^ (z + o) = 2 ^ 128 := by omega
        have hprod : 2 ^ (z + o) * (2 * h + 1) = 2 ^ 128 := by
          have h1 : (2:Nat) ^ (z + o + 1) * h = 2 ^ (z + o) * (2 * h) := by ring
          have h2 : (2:Nat) ^ (z + o) * (2 * h + 1) =
              2 ^ (z + o) * (2 * h) + 2 ^ (z + o) := by ring
          omega
        have hzo : z + o ≤ 128 := by
          by_contra hc
          have h1 : (2:Nat) ^ 128 < 2 ^ (z + o) := by
            have := Nat.pow_le_pow_right (show 1 ≤ 2 by omega) (show 129 ≤ z + o by omega)
            have h2 : (2:Nat) ^ 128 < 2 ^ 129 := by
              have h3 : (2:Nat) ^ 129 = 2 * 2 ^ 128 := by ring
              have := Nat.two_pow_pos 128
              omega
            omega
          nlinarith [Nat.two_pow_pos (z + o)]
        have hsplitpow : (2:Nat) ^ (z + o) * 2 ^ (128 - (z + o)) = 2 ^ 128 := by
          rw [← pow_add]
          congr 1
          omega
        have hodd2 : 2 * h + 1 = 2 ^ (128 - (z + o)) :=
          Nat.eq_of_mul_eq_mul_left hpzo (by rw [hprod, ← hsplitpow])
        have hzo128 : z + o = 128 ∧ h = 0 := by
          rcases Nat.eq_zero_or_pos (128 - (z + o)) with hz0 | hzpos
          · constructor
            · omega
            · rw [hz0] at hodd2
              simp at hodd2
              omega
          · exfalso
            obtain ⟨w, hw⟩ : ∃ w, 128 - (z + o) = w + 1 := ⟨128 - (z + o) - 1, by omega⟩
            rw [hw] at hodd2
            have h3 : (2:Nat) ^ (w + 1) = 2 * 2 ^ w := by ring
            omega
        obtain ⟨hzo128', rfl⟩ := hzo128
        have hval2 : unrankM m + 1 = Nat.choose 128 k := by
          have h1 := mform_unrankM z o 0
          rw [← hdec] at h1
          simp [sumChoose] at h1
          have hko : k = o := by rw [hkeq, pcW_zero]; omega
          rw [hko, ← hzo128']
          exact h1
        omega
    obtain ⟨hnext, -⟩ := next_rank_eq (z := z) (o := o) (h := h) ho hbound
    refine ⟨2 ^ (z + o) * (2 * h + 1) + (2 ^ (o - 1) - 1), ?_, ?_, ?_⟩
    · rw [markerTableAux, hsome, Option.some_bind, hdec]
      exact hnext
    · rw [nform_pcW z o h ho, hkeq]
    · have h1 := mform_unrankM z o h
      have h2 := nform_unrankM z o h ho
      rw [← hdec] at h1
      omega

/-! ## Claim C1: machinery — `unrank` agrees with the mathematical decode -/

/-- Exactness of `choose` on the small inputs `unrank` feeds it
(bit positions `≤ 63`, degrees `≤ 9` and at most one above the position),
checked by evaluation. -/
theorem choose_small_decide :
    ∀ n < 64, ∀ j < 10, j ≤ n + 1 → choose n j =
      some (Nat.descFactorial n j / Nat.factorial j) := by decide

theorem choose_small {n j : Nat} (hn : n ≤ 63) (hj : j ≤ 9) (hjn : j ≤ n + 1) :
    choose n j = some (Nat.choose n j) := by
  rw [Nat.choose_eq_descFactorial_div_factorial]
  exact choose_small_decide n (by omega) j (by omega) hjn

theorem bitsList_cons {z x : Nat} (hx : x % 2 = 1) :
    bitsList (2 ^ z * x) = z :: bitsList (2 ^ z * x - 2 ^ z) := by
  have hsub : 2 ^ z * x - 2 ^ z = 2 ^ (z + 1) * (x / 2) := by
    obtain ⟨q, rfl⟩ : ∃ q, x = 2 * q + 1 := ⟨x / 2, by omega⟩
    have h1 : (2:Nat) ^ (z + 1) * ((2 * q + 1) / 2) = 2 ^ z * (2 * q) := by
      have h2 : (2 * q + 1) / 2 = q := by omega
      rw [h2]
      ring
    have h3 : (2:Nat) ^ z * (2 * q + 1) = 2 ^ z * (2 * q) + 2 ^ z := by ring
    omega
  rw [hsub, bitsList_two_pow_mul, bitsList_two_pow_mul, bitsList_odd hx]
  simp only [List.map_cons, List.map_map, Nat.zero_add]
  congr 1
  exact List.map_congr_left fun a _ => by
    show a + 1 + z = a + (z + 1)
    omega

/-- Weight drops by one when the lowest set bit is removed. -/
theorem pcW_sub_lowbit {z x : Nat} (hx : x % 2 = 1) :
    pcW (2 ^ z * x) = 1 + pcW (2 ^ z * x - 2 ^ z) := by
  have h1 := bitsList_length (2 ^ z * x)
  have h2 := bitsList_length (2 ^ z * x - 2 ^ z)
  rw [bitsList_cons hx] at h1
  simp only [List.length_cons] at h1
  omega

/-- The code's `unrank` loop computes the combinatorial number system value
(and never panics) on `u64` markers of weight at most 9 whose value fits.
The divisibility hypothesis records that the `idx` already-consumed bits all
sat below the remaining ones. -/
theorem unrankAux_eq : ∀ fuel m idx acc, m < 2 ^ 64 → pcW m + idx ≤ 9 →
    pcW m < fuel → 2 ^ idx ∣ m →
    acc + sumChoose (bitsList m) (idx + 1) < 2 ^ 64 →
    unrankAux fuel m idx acc = some (acc + sumChoose (bitsList m) (idx + 1)) := by
  intro fuel
  induction fuel with
  | zero =>
    intro m idx acc _ _ hf _ _
    exact absurd hf (by omega)
  | succ fuel ih =>
    intro m idx acc hm hpc hf hdvd hacc
    rcases Nat.eq_zero_or_pos m with rfl | hmpos
    · simp [unrankAux, sumChoose]
    · have hmne : m ≠ 0 := by omega
      obtain ⟨z, x, rfl, hx⟩ := exists_odd_decomp m hmne
      have hm128 : 2 ^ z * x < 2 ^ 128 := by
        have h1 : (2:Nat) ^ 64 < 2 ^ 128 := by norm_num
        omega
      have htz : tz (2 ^ z * x) = z := tz_decomp hx hm128
      have hxpos : 0 < x := by omega
      have hzle : z ≤ 63 := by
        by_contra hc
        have h1 : (2:Nat) ^ 64 ≤ 2 ^ z := Nat.pow_le_pow_right (by omega) (by omega)
        have h2 : (2:Nat) ^ z ≤ 2 ^ z * x := Nat.le_mul_of_pos_right _ hxpos
        omega
      have hidxz : idx ≤ z := by
        by_contra hc
        have h1 : (2:Nat) ^ (z + 1) ∣ 2 ^ z * x := by
          exact dvd_trans (pow_dvd_pow 2 (by omega)) hdvd
        have h2 : (2:Nat) ^ (z + 1) = 2 ^ z * 2 := by ring
        rw [h2] at h1
        have h3 : (2:Nat) ∣ x :=
          (mul_dvd_mul_iff_left (show (2:Nat) ^ z ≠ 0 by positivity)).mp h1
        omega
      have hpcpos : 0 < pcW (2 ^ z * x) := pcW_pos hmne
      have hch : choose z (idx + 1) = some (Nat.choose z (idx + 1)) :=
        choose_small hzle (by omega) (by omega)
      have hcons := bitsList_cons (z := z) hx
      have hsc : sumChoose (bitsList (2 ^ z * x)) (idx + 1) =
          Nat.choose z (idx + 1) +
            sumChoose (bitsList (2 ^ z * x - 2 ^ z)) (idx + 1 + 1) := by
        rw [hcons]
        rfl
      have hsub : 2 ^ z * x - 2 ^ z = 2 ^ (z + 1) * (x / 2) := by
        obtain ⟨q, rfl⟩ : ∃ q, x = 2 * q + 1 := ⟨x / 2, by omega⟩
        have h1 : (2:Nat) ^ (z + 1) * ((2 * q + 1) / 2) = 2 ^ z * (2 * q) := by
          have h2 : (2 * q + 1) / 2 = q := by omega
          rw [h2]
          ring
        have h3 : (2:Nat) ^ z * (2 * q + 1) = 2 ^ z * (2 * q) + 2 ^ z := by ring
        omega
      have hdvd2 : 2 ^ (idx + 1) ∣ 2 ^ z * x - 2 ^ z := by
        rw [hsub]
        exact Dvd.dvd.mul_right (pow_dvd_pow 2 (by omega)) _
      have hpcsub := pcW_sub_lowbit (z := z) hx
      have hpz := Nat.two_pow_pos z
      have hpz1 := Nat.two_pow_pos (z + 1)
      have hif : acc + Nat.choose z (idx + 1) < 2 ^ 64 := by omega
      have harg1 : 2 ^ z * x - 2 ^ z < 2 ^ 64 := by omega
      have harg2 : pcW (2 ^ z * x - 2 ^ z) + (idx + 1) ≤ 9 := by omega
      have harg3 : pcW (2 ^ z * x - 2 ^ z) < fuel := by omega
      have harg4 : acc + Nat.choose z (idx + 1) +
          sumChoose (bitsList (2 ^ z * x - 2 ^ z)) (idx + 1 + 1) < 2 ^ 64 := by
        omega
      rw [unrankAux, if_neg hmne, htz, hch, Option.some_bind,
        if_pos hif, Nat.one_shiftLeft]
      rw [ih (2 ^ z * x - 2 ^ z) (idx + 1) (acc + Nat.choose z (idx + 1))
        harg1 harg2 harg3 hdvd2 harg4]
      congr 1
      omega

/-- Agreement of `unrank` with `unrankM` on small-weight `u64` markers. -/
theorem unrank_eq {m : Nat} (hm : m < 2 ^ 64) (hpc : pcW m ≤ 9)
    (hval : unrankM m < 2 ^ 64) : unrank m = some (unrankM m) := by
  have h := unrankAux_eq 129 m 0 0 hm (by omega) (by omega) (by simp)
    (by rw [Nat.zero_add]; exact hval)
  rw [unrank, h, Nat.zero_add]
  rfl

/-! ## Claim C1: the codec bijection -/

/-- Success of `rank` on the table-backed range, producing a weight-`k`
marker below `2^64` that decodes to the input. -/
theorem rank_good (k v : Nat) (hk1 : 1 ≤ k) (hk9 : k ≤ 9)
    (h200 : v < 200000) (h64 : v < Nat.choose 64 k) :
    ∃ m, rank v k = some m ∧ pcW m = k ∧ unrankM m = v ∧ m < 2 ^ 64 := by
  have hle : Nat.choose 64 k ≤ Nat.choose 128 k := Nat.choose_le_choose k (by omega)
  obtain ⟨m, hsome, hpc, hval⟩ := markerTableAux_good k hk1 v (by omega)
  have hts : v < table_size k := by
    unfold table_size
    split
    · rename_i h1
      subst h1
      rw [Nat.choose_one_right] at h64
      omega
    · split
      · rename_i h2
        subst h2
        rw [Nat.choose_two_right] at h64
        norm_num at h64
        omega
      · omega
  refine ⟨m, ?_, hpc, hval, ?_⟩
  · rw [rank_eq_markerTableAux hk1 (by omega) hts]
    exact hsome
  · by_contra hc
    have h1 := unrankM_lower_bound (c := 64) (m := m) (by omega)
    rw [hpc, hval] at h1
    omega

/-- C1: for every κ ∈ [1, 9] and every v ∈ [0, min(200000, C(64, κ))), the
codec is a bijection on its domain: `rank` succeeds, `unrank` recovers `v`
exactly, and the marker has exactly κ one-bits. -/
theorem claim_C1_codec_bijection (k v : Nat) (hk1 : 1 ≤ k) (hk9 : k ≤ 9)
    (hv : v < min 200000 (Nat.choose 64 k)) :
    ∃ m, rank v k = some m ∧ unrank m = some v ∧ popcount m = k := by
  have h200 : v < 200000 := lt_of_lt_of_le hv (min_le_left _ _)
  have h64 : v < Nat.choose 64 k := lt_of_lt_of_le hv (min_le_right _ _)
  obtain ⟨m, hrank, hpc, hval, hlt⟩ := rank_good k v hk1 hk9 h200 h64
  refine ⟨m, hrank, ?_, ?_⟩
  · rw [unrank_eq hlt (by omega) (by omega), hval]
  · rw [popcount_eq_pcW (by
      have h1 : (2:Nat) ^ 64 < 2 ^ 128 := by norm_num
      omega), hpc]

theorem claim_C1_witness :
    ∃ m, rank 2 3 = some m ∧ unrank m = some 2 ∧ popcount m = 3 :=
  claim_C1_codec_bijection 3 2 (by norm_num) (by norm_num)
    (by rw [Nat.choose_eq_descFactorial_div_factorial]; decide)

/-! ## Member machinery: submasks and popcount monotonicity -/

theorem submask_refl (a : Nat) : Submask a a := fun _ h => h

theorem submask_trans {a b c : Nat} (h1 : Submask a b) (h2 : Submask b c) :
    Submask a c := fun j hj => h2 j (h1 j hj)

theorem submask_and_left (a b : Nat) : Submask (a &&& b) a := by
  intro j hj
  rw [Nat.testBit_and, Bool.and_eq_true] at hj
  exact hj.1

theorem submask_and_intro {x a b : Nat} (ha : Submask x a) (hb : Submask x b) :
    Submask x (a &&& b) := by
  intro j hj
  rw [Nat.testBit_and, ha j hj, hb j hj]
  rfl

theorem submask_and_mono {a a' b b' : Nat} (h1 : Submask a a') (h2 : Submask b b') :
    Submask (a &&& b) (a' &&& b') := by
  intro j hj
  rw [Nat.testBit_and] at hj ⊢
  rw [Bool.and_eq_true] at hj
  rw [h1 j hj.1, h2 j hj.2]
  rfl

theorem submask_halve {a b : Nat} (h : Submask a b) : Submask (a / 2) (b / 2) := by
  intro j hj
  rw [← Nat.testBit_add_one] at hj ⊢
  exact h (j + 1) hj

theorem submask_ne_zero {a b : Nat} (h : Submask a b) (ha : a ≠ 0) : b ≠ 0 := by
  obtain ⟨i, hi⟩ := Nat.ne_zero_implies_bit_true ha
  intro hb
  have hbi := h i hi
  rw [hb, Nat.zero_testBit] at hbi
  exact Bool.noConfusion hbi

theorem submask_mod_two {a b : Nat} (h : Submask a b) : a % 2 ≤ b % 2 := by
  rcases Nat.mod_two_eq_zero_or_one a with h0 | h1
  · omega
  · have ht : a.testBit 0 = true := by rw [Nat.testBit_zero]; simp [h1]
    have hb := h 0 ht
    rw [Nat.testBit_zero] at hb
    have : b % 2 = 1 := of_decide_eq_true hb
    omega

theorem pcW_le_of_submask : ∀ b a, Submask a b → pcW a ≤ pcW b := by
  intro b
  induction b using Nat.strong_induction_on with
  | _ b ih =>
    intro a hsub
    by_cases ha : a = 0
    · subst ha; simp
    · have hb : b ≠ 0 := submask_ne_zero hsub ha
      have hhalf := ih (b / 2) (Nat.div_lt_self (Nat.pos_of_ne_zero hb) (by omega))
        (a / 2) (submask_halve hsub)
      have hm := submask_mod_two hsub
      rw [pcW_rec ha, pcW_rec hb]
      omega

theorem eq_of_submask_pcW : ∀ b a, Submask a b → pcW b ≤ pcW a → a = b := by
  intro b
  induction b using Nat.strong_induction_on with
  | _ b ih =>
    intro a hsub hpc
    by_cases ha : a = 0
    · subst ha
      rw [pcW_zero] at hpc
      by_contra hb
      have hne : b ≠ 0 := fun h => hb h.symm
      have := pcW_pos hne
      omega
    · have hb : b ≠ 0 := submask_ne_zero hsub ha
      have hmono := pcW_le_of_submask (b / 2) (a / 2) (submask_halve hsub)
      have hm := submask_mod_two hsub
      rw [pcW_rec ha, pcW_rec hb] at hpc
      have hpc2 : pcW (b / 2) ≤ pcW (a / 2) := by omega
      have heq := ih (b / 2) (Nat.div_lt_self (Nat.pos_of_ne_zero hb) (by omega))
        (a / 2) (submask_halve hsub) hpc2
      have hd1 := Nat.div_add_mod a 2
      have hd2 := Nat.div_add_mod b 2
      omega

/-! ## Member machinery: the bit-range reads and the merge loops -/

theorem getRange_lt (bits : Nat → Bool) : ∀ w lo, getRange bits lo w < 2 ^ w := by
  intro w
  induction w with
  | zero => intro lo; simp [getRange]
  | succ w ih =>
    intro lo
    have h1 := ih (lo + 1)
    have h2 : 2 ^ (w + 1) = 2 ^ w + 2 ^ w := by ring
    by_cases hb : bits lo <;> simp [getRange, hb] <;> omega

theorem getRange_testBit (bits : Nat → Bool) :
    ∀ w lo j, (getRange bits lo w).testBit j =
      (decide (j < w) && bits (lo + (w - 1 - j))) := by
  intro w
  induction w with
  | zero => intro lo j; simp [getRange, Nat.zero_testBit]
  | succ w ih =>
    intro lo j
    have hform : getRange bits lo (w + 1) =
        2 ^ w * (if bits lo then 1 else 0) + getRange bits (lo + 1) w := by
      by_cases hb : bits lo <;> simp [getRange, hb]
    rw [hform, Nat.testBit_mul_pow_two_add _ (getRange_lt bits w (lo + 1))]
    rcases Nat.lt_or_ge j w with hj | hj
    · rw [if_pos hj, ih]
      have harg : lo + 1 + (w - 1 - j) = lo + (w + 1 - 1 - j) := by omega
      have hd1 : (decide (j < w)) = true := by simp [hj]
      have hd2 : (decide (j < w + 1)) = true := by simp; omega
      rw [harg, hd1, hd2]
    · rw [if_neg (not_lt.mpr hj)]
      rcases Nat.eq_or_lt_of_le hj with heq | hgt
      · subst heq
        have hz : w - w = 0 := by omega
        have ha : w + 1 - 1 - w = 0 := by omega
        have hd : (decide (w < w + 1)) = true := by simp
        rw [hz, ha, hd]
        by_cases hb : bits lo <;> simp [hb]
      · have hd : (decide (j < w + 1)) = false := by simp; omega
        rw [hd]
        have hpos : j - w ≠ 0 := by omega
        by_cases hb : bits lo
        · rw [if_pos hb]
          have h1 : (1 : Nat) = 2 ^ 0 := rfl
          rw [h1, Nat.testBit_two_pow]
          simp
          omega
        · rw [if_neg hb]
          simp [Nat.zero_testBit]

theorem getRange_mono_bits {bits bits' : Nat → Bool}
    (hb : ∀ i, bits i = true → bits' i = true) (w lo : Nat) :
    Submask (getRange bits lo w) (getRange bits' lo w) := by
  intro j hj
  rw [getRange_testBit] at hj ⊢
  rw [Bool.and_eq_true] at hj
  rw [hj.1, hb _ hj.2]
  rfl

theorem foldAnd_le (bits : Nat → Bool) (w : Nat) :
    ∀ l acc, foldAnd bits w l acc ≤ acc := by
  intro l
  induction l with
  | nil => intro acc; exact le_refl acc
  | cons p rest ih =>
    intro acc
    exact le_trans (ih (acc &&& getRange bits p w)) Nat.and_le_left

theorem submask_foldAnd_acc (bits : Nat → Bool) (w : Nat) :
    ∀ l acc, Submask (foldAnd bits w l acc) acc := by
  intro l
  induction l with
  | nil => intro acc; exact submask_refl acc
  | cons p rest ih =>
    intro acc
    exact submask_trans (ih (acc &&& getRange bits p w)) (submask_and_left _ _)

theorem submask_foldAnd_intro {x : Nat} (bits : Nat → Bool) (w : Nat) :
    ∀ l acc, Submask x acc → (∀ p ∈ l, Submask x (getRange bits p w)) →
      Submask x (foldAnd bits w l acc) := by
  intro l
  induction l with
  | nil => intro acc hacc _; exact hacc
  | cons p rest ih =>
    intro acc hacc hsl
    exact ih (acc &&& getRange bits p w)
      (submask_and_intro hacc (hsl p (List.mem_cons_self p rest)))
      (fun q hq => hsl q (List.mem_cons_of_mem p hq))

theorem foldAnd_mono_bits {bits bits' : Nat → Bool}
    (hb : ∀ i, bits i = true → bits' i = true) (w : Nat) :
    ∀ l acc acc', Submask acc acc' →
      Submask (foldAnd bits w l acc) (foldAnd bits' w l acc') := by
  intro l
  induction l with
  | nil => intro acc acc' h; exact h
  | cons p rest ih =>
    intro acc acc' h
    exact ih _ _ (submask_and_mono h (getRange_mono_bits hb w p))

theorem getRawFold_spec (bits : Nat → Bool) (w k : Nat) :
    ∀ l acc, acc < 2 ^ 128 →
      (k ≤ popcount (foldAnd bits w l acc) →
        getRawFold bits w k l acc = foldAnd bits w l acc) ∧
      (popcount (foldAnd bits w l acc) < k →
        popcount (getRawFold bits w k l acc) < k) := by
  intro l
  induction l with
  | nil => intro acc _; exact ⟨fun _ => rfl, fun h => h⟩
  | cons p rest ih =>
    intro acc hacc
    have hg_le : acc &&& getRange bits p w ≤ acc := Nat.and_le_left
    have hg_lt : acc &&& getRange bits p w < 2 ^ 128 := lt_of_le_of_lt hg_le hacc
    have hfold_le : foldAnd bits w rest (acc &&& getRange bits p w) ≤
        acc &&& getRange bits p w := foldAnd_le _ _ _ _
    have hpcle : popcount (foldAnd bits w rest (acc &&& getRange bits p w)) ≤
        popcount (acc &&& getRange bits p w) := by
      rw [popcount_eq_pcW (lt_of_le_of_lt hfold_le hg_lt), popcount_eq_pcW hg_lt]
      exact pcW_le_of_submask _ _ (submask_foldAnd_acc _ _ _ _)
    have ihg := ih (acc &&& getRange bits p w) hg_lt
    by_cases hexit : popcount (acc &&& getRange bits p w) < k
    · constructor
      · intro hge
        exfalso
        have hrw : foldAnd bits w (p :: rest) acc =
            foldAnd bits w rest (acc &&& getRange bits p w) := rfl
        rw [hrw] at hge
        omega
      · intro _
        have h0 : getRawFold bits w k (p :: rest) acc = 0 := by
          simp [getRawFold, hexit]
        rw [h0]
        have hz : popcount 0 = 0 := rfl
        omega
    · have heq : getRawFold bits w k (p :: rest) acc =
          getRawFold bits w k rest (acc &&& getRange bits p w) := by
        simp [getRawFold, hexit]
      constructor
      · intro hge
        rw [heq]
        exact ihg.1 hge
      · intro hlt
        rw [heq]
        exact ihg.2 hlt

/-- Helper: `Member::get` classifies the pure intersection of all slices. -/
theorem memberGet_classify (m : BFieldMember) (hash : Nat × Nat)
    (hk : m.params.n_hashes ≤ 16) :
    memberGet m hash =
      (if m.params.n_marker_bits < popcount (mergedAll m hash) then
        Option.some BFieldLookup.indeterminate
      else if popcount (mergedAll m hash) = m.params.n_marker_bits then
        (unrank (mergedAll m hash)).map (fun v => BFieldLookup.some (v % 2 ^ 32))
      else Option.some BFieldLookup.none) := by
  have hspec := getRawFold_spec m.bits m.params.marker_width m.params.n_marker_bits
    (memberPositions m hash) (2 ^ 128 - 1) (by norm_num)
  simp only [memberGet]
  rw [if_neg (show ¬ 16 < m.params.n_hashes by omega)]
  rcases Nat.lt_or_ge (popcount (mergedAll m hash)) m.params.n_marker_bits with hlt | hge
  · have hgot : popcount (get_raw m hash m.params.n_marker_bits) <
        m.params.n_marker_bits := hspec.2 hlt
    rw [if_neg (show ¬ m.params.n_marker_bits <
          popcount (get_raw m hash m.params.n_marker_bits) by omega),
        if_neg (show ¬ popcount (get_raw m hash m.params.n_marker_bits) =
          m.params.n_marker_bits by omega),
        if_neg (show ¬ m.params.n_marker_bits < popcount (mergedAll m hash) by omega),
        if_neg (show ¬ popcount (mergedAll m hash) = m.params.n_marker_bits by omega)]
  · have heq : get_raw m hash m.params.n_marker_bits = mergedAll m hash := hspec.1 hge
    rw [heq]

/-- C2: `Member::get` returns the three-valued classification of the bitwise
AND of the k slices read at the key's k hash-derived offsets — `Indeterminate`
above κ set bits, `Some(unrank(merged))` at exactly κ, `None` below κ —
with the early exit of `get_raw` (return 0 as soon as the running popcount
drops below κ) never changing the outcome. -/
theorem claim_C2_member_get (m : BFieldMember) (hash : Nat × Nat)
    (hk : m.params.n_hashes ≤ 16) :
    memberGet m hash =
      (if m.params.n_marker_bits < popcount (mergedAll m hash) then
        Option.some BFieldLookup.indeterminate
      else if popcount (mergedAll m hash) = m.params.n_marker_bits then
        (unrank (mergedAll m hash)).map (fun v => BFieldLookup.some (v % 2 ^ 32))
      else Option.some BFieldLookup.none) :=
  memberGet_classify m hash hk

/-- C2 witness: a concrete 16-bit member with all-zero bits, k = 3, ν = 8,
κ = 4; the merged marker is 0, the early exit fires, and `get` returns
`None` as the classification of the pure intersection predicts. -/
theorem claim_C2_witness :
    memberGet (BFieldMember.mk 16 (fun _ => false) (BFieldParams.mk 3 8 4)) (5, 7) =
      Option.some BFieldLookup.none ∧
    popcount (mergedAll (BFieldMember.mk 16 (fun _ => false) (BFieldParams.mk 3 8 4)) (5, 7)) <
      (BFieldParams.mk 3 8 4).n_marker_bits := by
  constructor
  · rw [claim_C2_member_get (BFieldMember.mk 16 (fun _ => false) (BFieldParams.mk 3 8 4))
      (5, 7) (by norm_num)]
    decide
  · decide

/-! ## Claim C3: the cascade lookup scan -/

/-- C3: `BField::get` queries the members in order and returns on the first
member whose answer is not `Indeterminate` — `Some(v)` yields `Some(v)`,
`None` yields `None` — and if every member answers `Indeterminate` the
result is `None`. -/
theorem claim_C3_get_scan (hash : Nat × Nat) :
    (∀ (m : BFieldMember) (rest : List BFieldMember),
      memberGet m hash = Option.some BFieldLookup.indeterminate →
      bfieldGetAux hash (m :: rest) = bfieldGetAux hash rest) ∧
    (∀ (m : BFieldMember) (rest : List BFieldMember) (v : Nat),
      memberGet m hash = Option.some (BFieldLookup.some v) →
      bfieldGetAux hash (m :: rest) = Option.some (Option.some v)) ∧
    (∀ (m : BFieldMember) (rest : List BFieldMember),
      memberGet m hash = Option.some BFieldLookup.none →
      bfieldGetAux hash (m :: rest) = Option.some Option.none) ∧
    (∀ bf : BField,
      (∀ m ∈ bf.members, memberGet m hash = Option.some BFieldLookup.indeterminate) →
      bfieldGet bf hash = Option.some Option.none) := by
  refine ⟨?_, ?_, ?_, ?_⟩
  · intro m rest h
    simp [bfieldGetAux, h]
  · intro m rest v h
    simp [bfieldGetAux, h]
  · intro m rest h
    simp [bfieldGetAux, h]
  · intro bf hall
    rw [bfieldGet]
    have haux : ∀ l : List BFieldMember,
        (∀ m ∈ l, memberGet m hash = Option.some BFieldLookup.indeterminate) →
        bfieldGetAux hash l = Option.some Option.none := by
      intro l
      induction l with
      | nil => intro _; rfl
      | cons m rest ih =>
        intro h
        have hm := h m (List.mem_cons_self m rest)
        simp only [bfieldGetAux, hm, Option.some_bind]
        exact ih (fun q hq => h q (List.mem_cons_of_mem m hq))
    exact haux bf.members hall

/-- C3 witness: a one-member cascade whose member answers `None` for the
key; the scan returns that `None` immediately. -/
theorem claim_C3_witness :
    bfieldGetAux (5, 7) [BFieldMember.mk 16 (fun _ => false) (BFieldParams.mk 3 8 4)] =
      Option.some Option.none :=
  (claim_C3_get_scan (5, 7)).2.2.1
    (BFieldMember.mk 16 (fun _ => false) (BFieldParams.mk 3 8 4)) [] (by decide)

/-! ## Claim C4: the cascade insert pass logic -/

theorem anyResolved_classify (hash : Nat × Nat) :
    ∀ l : List BFieldMember, (∀ mm ∈ l, memberGet mm hash ≠ Option.none) →
      ((∀ mm ∈ l, memberGet mm hash = Option.some BFieldLookup.indeterminate) →
        anyResolved hash l = Option.some false) ∧
      ((∃ mm ∈ l, memberGet mm hash ≠ Option.some BFieldLookup.indeterminate) →
        anyResolved hash l = Option.some true) := by
  intro l
  induction l with
  | nil =>
    intro _
    refine ⟨fun _ => rfl, ?_⟩
    intro h
    rcases h with ⟨mm, hmm, _⟩
    exact absurd hmm (List.not_mem_nil mm)
  | cons m rest ih =>
    intro hok
    have hm_ok := hok m (List.mem_cons_self m rest)
    have ihr := ih (fun q hq => hok q (List.mem_cons_of_mem m hq))
    cases hr : memberGet m hash with
    | none => exact absurd hr hm_ok
    | some r =>
      cases r with
      | indeterminate =>
        have hstep : anyResolved hash (m :: rest) = anyResolved hash rest := by
          simp [anyResolved, hr]
        constructor
        · intro hall
          rw [hstep]
          exact ihr.1 (fun q hq => hall q (List.mem_cons_of_mem m hq))
        · intro hex
          rw [hstep]
          rcases hex with ⟨mm, hmm, hne⟩
          rcases List.mem_cons.mp hmm with rfl | hmem
          · exact absurd hr hne
          · exact ihr.2 ⟨mm, hmem, hne⟩
      | some v =>
        refine ⟨?_, fun _ => by simp [anyResolved, hr]⟩
        intro hall
        have hc := hall m (List.mem_cons_self m rest)
        rw [hr] at hc
        simp at hc
      | none =>
        refine ⟨?_, fun _ => by simp [anyResolved, hr]⟩
        intro hall
        have hc := hall m (List.mem_cons_self m rest)
        rw [hr] at hc
        simp at hc

/-- C4: `BField::insert` with `pass < n` on a writable cascade: when every
member before `pass` answers `Indeterminate` (vacuously so for `pass = 0`)
it inserts into member `pass` and returns `true`; when some earlier member
answers anything other than `Indeterminate` it performs no insertion and
returns `false`.  (`hok` restricts to keys on which no earlier member's
`get` panics, which is what the source would do instead of returning.) -/
theorem claim_C4_insert (bf : BField) (hash : Nat × Nat) (value pass : Nat)
    (hro : bf.read_only = false) (hpass : pass < bf.members.length)
    (hok : ∀ mm ∈ bf.members.take pass, memberGet mm hash ≠ Option.none) :
    ((∀ mm ∈ bf.members.take pass,
        memberGet mm hash = Option.some BFieldLookup.indeterminate) →
      bfieldInsert bf hash value pass =
        (memberInsert (bf.members.get ⟨pass, hpass⟩) hash value).map
          (fun m2 => (true, BField.mk (bf.members.set pass m2) bf.read_only))) ∧
    ((∃ mm ∈ bf.members.take pass,
        memberGet mm hash ≠ Option.some BFieldLookup.indeterminate) →
      bfieldInsert bf hash value pass = Option.some (false, bf)) := by
  have hcl := anyResolved_classify hash (bf.members.take pass) hok
  constructor
  · intro hall
    simp only [bfieldInsert]
    rw [if_neg (show ¬ bf.read_only = true by simp [hro]), dif_pos hpass,
      hcl.1 hall, Option.some_bind, if_neg (show ¬ false = true by simp)]
  · intro hex
    simp only [bfieldInsert]
    rw [if_neg (show ¬ bf.read_only = true by simp [hro]), dif_pos hpass,
      hcl.2 hex, Option.some_bind, if_pos (show true = true from rfl)]

/-- C4 witness: a writable one-member cascade at pass 0 — the earlier-member
scan is empty, so the insert goes into member 0 and returns `true`. -/
theorem claim_C4_witness :
    bfieldInsert (BField.mk [BFieldMember.mk 16 (fun _ => false) (BFieldParams.mk 3 8 4)] false)
        (5, 7) 2 0 =
      (memberInsert (BFieldMember.mk 16 (fun _ => false) (BFieldParams.mk 3 8 4)) (5, 7) 2).map
        (fun m2 => (true,
          BField.mk ([BFieldMember.mk 16 (fun _ => false) (BFieldParams.mk 3 8 4)].set 0 m2)
            false)) :=
  (claim_C4_insert (BField.mk [BFieldMember.mk 16 (fun _ => false) (BFieldParams.mk 3 8 4)] false)
    (5, 7) 2 0 rfl (by simp) (by simp)).1 (by simp)

/-! ## Claim C10: pass-0 inserts are unconditional -/

/-- C10: `BField::insert(key, value, 0)` never queries a member: on a
writable, non-empty cascade it unconditionally inserts `rank(value, κ)`
into member 0 (`memberInsert` is exactly `rank` followed by the OR-insert)
and returns `true` — the earlier-member check covers only indices strictly
below the pass, so `M_0` itself is never consulted. -/
theorem claim_C10_pass_zero (bf : BField) (hash : Nat × Nat) (value : Nat)
    (hro : bf.read_only = false) (hne : 0 < bf.members.length) :
    bfieldInsert bf hash value 0 =
      (memberInsert (bf.members.get ⟨0, hne⟩) hash value).map
        (fun m2 => (true, BField.mk (bf.members.set 0 m2) bf.read_only)) := by
  simp only [bfieldInsert]
  rw [if_neg (show ¬ bf.read_only = true by simp [hro]), dif_pos hne,
    show anyResolved hash (bf.members.take 0) = Option.some false from rfl,
    Option.some_bind, if_neg (show ¬ false = true by simp)]

/-- C10 witness: a concrete writable one-member cascade; the pass-0 insert
is the unconditional member-0 insert. -/
theorem claim_C10_witness :
    bfieldInsert (BField.mk [BFieldMember.mk 32 (fun _ => false) (BFieldParams.mk 2 8 3)] false)
        (9, 11) 1 0 =
      (memberInsert (BFieldMember.mk 32 (fun _ => false) (BFieldParams.mk 2 8 3)) (9, 11) 1).map
        (fun m2 => (true,
          BField.mk ([BFieldMember.mk 32 (fun _ => false) (BFieldParams.mk 2 8 3)].set 0 m2)
            false)) :=
  claim_C10_pass_zero
    (BField.mk [BFieldMember.mk 32 (fun _ => false) (BFieldParams.mk 2 8 3)] false)
    (9, 11) 1 rfl (by simp)

/-! ## More bit toolkit: OR with a single bit, least unset bit -/

theorem mod_two_of_testBit (x : Nat) : x % 2 = (if x.testBit 0 then 1 else 0) := by
  rw [Nat.testBit_zero]
  rcases Nat.mod_two_eq_zero_or_one x with h | h <;> simp [h]

theorem lor_div_two (a b : Nat) : (a ||| b) / 2 = a / 2 ||| b / 2 := by
  apply Nat.eq_of_testBit_eq
  intro i
  simp only [Nat.testBit_lor, ← Nat.testBit_add_one, Nat.testBit_lor]

theorem pcW_even {e : Nat} (h : e % 2 = 0) : pcW e = pcW (e / 2) := by
  by_cases he : e = 0
  · subst he; simp
  · rw [pcW_rec he, h]
    omega

theorem or_twoPow_eq_self {e j : Nat} (h : e.testBit j = true) : e ||| 2 ^ j = e := by
  apply Nat.eq_of_testBit_eq
  intro i
  rw [Nat.testBit_lor, Nat.testBit_two_pow]
  by_cases hij : j = i
  · subst hij; rw [h]; simp
  · simp [hij]

theorem pcW_lor_two_pow : ∀ j e, e.testBit j = false → pcW (e ||| 2 ^ j) = pcW e + 1 := by
  intro j
  induction j with
  | zero =>
    intro e h
    rw [Nat.testBit_zero] at h
    have he2 : e % 2 = 0 := by
      rcases Nat.mod_two_eq_zero_or_one e with h0 | h1
      · exact h0
      · rw [h1] at h; simp at h
    have hb : (e ||| 2 ^ 0).testBit 0 = true := by
      rw [Nat.testBit_lor, Nat.testBit_two_pow]
      simp
    have hne : e ||| 2 ^ 0 ≠ 0 := by
      intro hz; rw [hz, Nat.zero_testBit] at hb; exact Bool.noConfusion hb
    have hparity : (e ||| 2 ^ 0) % 2 = 1 := by
      rw [Nat.testBit_zero] at hb
      exact of_decide_eq_true hb
    have hhalf : (e ||| 2 ^ 0) / 2 = e / 2 := by
      rw [lor_div_two]
      simp
    rw [pcW_rec hne, hparity, hhalf, pcW_even he2]
    omega
  | succ j ih =>
    intro e h
    have h2 : (2 ^ (j + 1)).testBit 0 = false := by
      rw [Nat.testBit_two_pow]
      simp
    have hb : (e ||| 2 ^ (j + 1)).testBit (j + 1) = true := by
      rw [Nat.testBit_lor, Nat.testBit_two_pow]
      simp
    have hne : e ||| 2 ^ (j + 1) ≠ 0 := by
      intro hz; rw [hz, Nat.zero_testBit] at hb; exact Bool.noConfusion hb
    have hparity : (e ||| 2 ^ (j + 1)) % 2 = e % 2 := by
      rw [mod_two_of_testBit (e ||| 2 ^ (j + 1)), Nat.testBit_lor, h2, Bool.or_false,
        ← mod_two_of_testBit e]
    have hhalf : (e ||| 2 ^ (j + 1)) / 2 = e / 2 ||| 2 ^ j := by
      rw [lor_div_two]
      congr 1
      rw [Nat.pow_succ]
      exact Nat.mul_div_cancel _ (by norm_num)
    have hbit : (e / 2).testBit j = false := by
      rw [← Nat.testBit_add_one]
      exact h
    rw [pcW_rec hne, hparity, hhalf, ih (e / 2) hbit]
    by_cases he : e = 0
    · subst he; simp
    · rw [pcW_rec he]
      omega

theorem submask_lor_intro {a b x : Nat} (h1 : Submask a x) (h2 : Submask b x) :
    Submask (a ||| b) x := by
  intro j hj
  rw [Nat.testBit_lor, Bool.or_eq_true] at hj
  rcases hj with hj | hj
  · exact h1 j hj
  · exact h2 j hj

theorem submask_ones {x : Nat} (hx : x < 2 ^ 128) : Submask x (2 ^ 128 - 1) := by
  intro j hj
  rw [Nat.testBit_two_pow_sub_one]
  rcases Nat.lt_or_ge j 128 with h | h
  · simp [h]
  · exfalso
    have hx2 : x < 2 ^ j := lt_of_lt_of_le hx (Nat.pow_le_pow_right (by norm_num) h)
    rw [Nat.testBit_lt_two_pow hx2] at hj
    exact Bool.noConfusion hj

theorem leastUnsetFuel_spec : ∀ fuel e, (∃ i, i < fuel ∧ e.testBit i = false) →
    e.testBit (leastUnsetFuel fuel e) = false ∧
    ∀ j, j < leastUnsetFuel fuel e → e.testBit j = true := by
  intro fuel
  induction fuel with
  | zero => intro e h; rcases h with ⟨i, hi, _⟩; omega
  | succ fuel ih =>
    intro e h
    by_cases he : e % 2 = 0
    · have hr : leastUnsetFuel (fuel + 1) e = 0 := by simp [leastUnsetFuel, he]
      rw [hr]
      constructor
      · rw [Nat.testBit_zero]; simp [he]
      · intro j hj; omega
    · have hodd : e % 2 = 1 := by omega
      have hr : leastUnsetFuel (fuel + 1) e = leastUnsetFuel fuel (e / 2) + 1 := by
        simp [leastUnsetFuel, he]
      have hex : ∃ i, i < fuel ∧ (e / 2).testBit i = false := by
        rcases h with ⟨i, hi, hbit⟩
        rcases i with _ | i
        · rw [Nat.testBit_zero, hodd] at hbit
          simp at hbit
        · refine ⟨i, by omega, ?_⟩
          rw [← Nat.testBit_add_one]
          exact hbit
      have hsp := ih (e / 2) hex
      rw [hr]
      constructor
      · rw [Nat.testBit_add_one]
        exact hsp.1
      · intro j hj
        rcases j with _ | j
        · rw [Nat.testBit_zero, hodd]; simp
        · rw [Nat.testBit_add_one]
          exact hsp.2 j (by omega)

theorem le_pcW_of_below : ∀ L e, (∀ j, j < L → e.testBit j = true) → L ≤ pcW e := by
  intro L
  induction L with
  | zero => intro e _; exact Nat.zero_le _
  | succ L ih =>
    intro e h
    have h0 := h 0 (by omega)
    rw [Nat.testBit_zero] at h0
    have he1 : e % 2 = 1 := of_decide_eq_true h0
    have hne : e ≠ 0 := by intro hz; rw [hz] at he1; omega
    have htail : ∀ j, j < L → (e / 2).testBit j = true := by
      intro j hj
      rw [← Nat.testBit_add_one]
      exact h (j + 1) (by omega)
    have := ih (e / 2) htail
    rw [pcW_rec hne]
    omega

theorem getRawFold_le (bits : Nat → Bool) (w k : Nat) :
    ∀ l acc, getRawFold bits w k l acc ≤ acc := by
  intro l
  induction l with
  | nil => intro acc; exact le_refl acc
  | cons p rest ih =>
    intro acc
    by_cases hexit : popcount (acc &&& getRange bits p w) < k
    · simp [getRawFold, hexit]
    · simp only [getRawFold, if_neg hexit]
      exact le_trans (ih _) Nat.and_le_left

theorem get_raw_lt (m : BFieldMember) (hash : Nat × Nat) (k : Nat) :
    get_raw m hash k < 2 ^ 128 :=
  lt_of_le_of_lt (getRawFold_le _ _ _ _ _) (by norm_num)

theorem mergedAll_lt (m : BFieldMember) (hash : Nat × Nat) : mergedAll m hash < 2 ^ 128 :=
  lt_of_le_of_lt (foldAnd_le _ _ _ _) (by norm_num)

/-! ## The marker written by an insert is contained in every probed slice -/

theorem getRange_setRange_self (bits : Nat → Bool) (p w mk : Nat) :
    Submask (mk % 2 ^ w) (getRange (setRange bits p w mk) p w) := by
  intro j hj
  rw [Nat.testBit_mod_two_pow, Bool.and_eq_true] at hj
  have hjw : j < w := of_decide_eq_true hj.1
  rw [getRange_testBit, hj.1, Bool.true_and]
  simp only [setRange]
  have h1 : p ≤ p + (w - 1 - j) := Nat.le_add_right _ _
  have h2 : p + (w - 1 - j) < p + w := by omega
  have h3 : p + w - 1 - (p + (w - 1 - j)) = j := by omega
  rw [h3]
  simp [h1, h2, hj.2]

theorem insertLoop_subset (hash : Nat × Nat) (size w mk : Nat) (bits : Nat → Bool) :
    ∀ n i, i < n →
      Submask (mk % 2 ^ w)
        (getRange (insertLoop hash size w mk bits n) (marker_pos hash i size w) w) := by
  intro n
  induction n with
  | zero => intro i hi; exact absurd hi (Nat.not_lt_zero i)
  | succ n ih =>
    intro i hi
    rcases Nat.lt_or_ge i n with hin | hin
    · have hmono : ∀ q, insertLoop hash size w mk bits n q = true →
          insertLoop hash size w mk bits (n + 1) q = true := by
        intro q hq
        simp [insertLoop, setRange, hq]
      exact submask_trans (ih i hin) (getRange_mono_bits hmono w _)
    · have hieq : i = n := by omega
      subst hieq
      exact getRange_setRange_self (insertLoop hash size w mk bits i)
        (marker_pos hash i size w) w mk

theorem mergedAll_insert_subset (m : BFieldMember) (hash : Nat × Nat) (mk : Nat)
    (hν : m.params.marker_width ≤ 128) :
    Submask (mk % 2 ^ m.params.marker_width) (mergedAll (insert_raw m hash mk) hash) := by
  show Submask (mk % 2 ^ m.params.marker_width)
    (foldAnd (insertLoop hash m.size m.params.marker_width mk m.bits m.params.n_hashes)
      m.params.marker_width (memberPositions m hash) (2 ^ 128 - 1))
  apply submask_foldAnd_intro
  · apply submask_ones
    calc mk % 2 ^ m.params.marker_width < 2 ^ m.params.marker_width :=
      Nat.mod_lt _ (Nat.two_pow_pos _)
    _ ≤ 2 ^ 128 := Nat.pow_le_pow_right (by norm_num) hν
  · intro p hp
    rw [memberPositions] at hp
    obtain ⟨i, hi, rfl⟩ := List.mem_map.mp hp
    exact insertLoop_subset hash m.size m.params.marker_width mk m.bits
      m.params.n_hashes i (List.mem_range.mp hi)

theorem insertLoop_mono (hash : Nat × Nat) (size w mk : Nat) (bits : Nat → Bool) :
    ∀ n i, bits i = true → insertLoop hash size w mk bits n i = true := by
  intro n
  induction n with
  | zero => intro i h; exact h
  | succ n ih =>
    intro i h
    simp [insertLoop, setRange, ih i h]

theorem mergedAll_insert_mono (m : BFieldMember) (hash : Nat × Nat) (mk : Nat) :
    Submask (mergedAll m hash) (mergedAll (insert_raw m hash mk) hash) := by
  show Submask (foldAnd m.bits m.params.marker_width (memberPositions m hash) (2 ^ 128 - 1))
    (foldAnd (insertLoop hash m.size m.params.marker_width mk m.bits m.params.n_hashes)
      m.params.marker_width (memberPositions m hash) (2 ^ 128 - 1))
  apply foldAnd_mono_bits
  · exact insertLoop_mono hash m.size m.params.marker_width mk m.bits m.params.n_hashes
  · exact submask_refl _

/-! ## Claim C8: the bit store is monotonic -/

theorem insert_raw_mono (m : BFieldMember) (hash : Nat × Nat) (mk : Nat) :
    (insert_raw m hash mk).size = m.size ∧
    ∀ i, m.bits i = true → (insert_raw m hash mk).bits i = true :=
  ⟨rfl, fun i h => insertLoop_mono hash m.size m.params.marker_width mk m.bits
    m.params.n_hashes i h⟩

theorem mask_or_insert_mono {m m2 : BFieldMember} {hash : Nat × Nat} {value : Nat}
    (h : (mask_or_insert m hash value).map Prod.snd = Option.some m2) :
    m2.size = m.size ∧ ∀ i, m.bits i = true → m2.bits i = true := by
  rcases Option.map_eq_some'.mp h with ⟨⟨b, mm⟩, hmm, hsnd⟩
  rcases Option.bind_eq_some.mp hmm with ⟨c, _, hrest⟩
  simp only at hsnd
  subst hsnd
  by_cases h16 : 16 < m.params.n_hashes
  · rw [if_pos h16] at hrest
    exact absurd hrest (by simp)
  · rw [if_neg h16] at hrest
    split_ifs at hrest with h1 h2 h3
    · have hm : m = mm := congrArg Prod.snd (Option.some.inj hrest)
      rw [← hm]
      exact ⟨rfl, fun _ hh => hh⟩
    · have hm : m = mm := congrArg Prod.snd (Option.some.inj hrest)
      rw [← hm]
      exact ⟨rfl, fun _ hh => hh⟩
    · rcases Option.map_eq_some'.mp hrest with ⟨nm, _, hpair⟩
      have hm : insert_raw m hash nm = mm := congrArg Prod.snd hpair
      rw [← hm]
      exact insert_raw_mono m hash nm
    · have hm : insert_raw m hash c = mm := congrArg Prod.snd (Option.some.inj hrest)
      rw [← hm]
      exact insert_raw_mono m hash c

theorem applyOp_mono {m m2 : BFieldMember} {op : MemberOp}
    (h : applyOp m op = Option.some m2) :
    m2.size = m.size ∧ ∀ i, m.bits i = true → m2.bits i = true := by
  cases op with
  | ins hash value =>
    rcases Option.map_eq_some'.mp h with ⟨c, _, hm2⟩
    subst hm2
    exact insert_raw_mono m hash c
  | mask hash value => exact mask_or_insert_mono h

theorem filter_length_mono : ∀ (l : List Nat) (p q : Nat → Bool),
    (∀ i, p i = true → q i = true) →
    (l.filter p).length ≤ (l.filter q).length := by
  intro l
  induction l with
  | nil => intro p q _; exact le_refl 0
  | cons a l ih =>
    intro p q h
    have hlen := ih p q h
    cases hp : p a with
    | true =>
      have hq := h a hp
      simp [List.filter_cons, hp, hq]
      omega
    | false =>
      cases hq : q a with
      | true =>
        simp [List.filter_cons, hp, hq]
        omega
      | false =>
        simp [List.filter_cons, hp, hq]
        omega

theorem storeRank_mono {m m2 : BFieldMember} (hsize : m2.size = m.size)
    (hbits : ∀ i, m.bits i = true → m2.bits i = true) :
    storeRank m ≤ storeRank m2 := by
  rw [storeRank, storeRank, hsize]
  exact filter_length_mono (List.range m.size) _ _ (fun i hi => hbits i hi)

theorem applyOps_mono : ∀ (ops : List MemberOp) (m m2 : BFieldMember),
    applyOps m ops = Option.some m2 →
    m2.size = m.size ∧ ∀ i, m.bits i = true → m2.bits i = true := by
  intro ops
  induction ops with
  | nil =>
    intro m m2 h
    have hm := Option.some.inj h
    subst hm
    exact ⟨rfl, fun _ hh => hh⟩
  | cons op rest ih =>
    intro m m2 h
    rcases Option.bind_eq_some.mp h with ⟨mm, hop, hrest⟩
    have h1 := applyOp_mono hop
    have h2 := ih mm m2 hrest
    exact ⟨by rw [h2.1, h1.1], fun i hi => h2.2 i (h1.2 i hi)⟩

/-- C8: the member bit store is monotonic — a single `insert` or
`mask_or_insert` never clears a set bit (and keeps the size), and after any
sequence of such operations the popcount of the whole store
(`bitvec.rank(0..size)`) never decreases. -/
theorem claim_C8_monotone :
    (∀ (m : BFieldMember) (op : MemberOp) (m2 : BFieldMember),
      applyOp m op = Option.some m2 →
      m2.size = m.size ∧ ∀ i, m.bits i = true → m2.bits i = true) ∧
    (∀ (m : BFieldMember) (ops : List MemberOp) (m2 : BFieldMember),
      applyOps m ops = Option.some m2 → storeRank m ≤ storeRank m2) := by
  constructor
  · intro m op m2 h
    exact applyOp_mono h
  · intro m ops m2 h
    have hh := applyOps_mono ops m m2 h
    exact storeRank_mono hh.1 hh.2

/-- C8 witness: one concrete insert (value 0, κ = 1) on an all-zero 8-bit
member; the store popcount does not decrease. -/
theorem claim_C8_witness :
    storeRank (BFieldMember.mk 8 (fun _ => false) (BFieldParams.mk 1 2 1)) ≤
      storeRank (insert_raw (BFieldMember.mk 8 (fun _ => false) (BFieldParams.mk 1 2 1))
        (0, 0) 1) :=
  claim_C8_monotone.2 (BFieldMember.mk 8 (fun _ => false) (BFieldParams.mk 1 2 1))
    [MemberOp.ins (0, 0) 0]
    (insert_raw (BFieldMember.mk 8 (fun _ => false) (BFieldParams.mk 1 2 1)) (0, 0) 1) rfl

/-! ## Claim C7: mask_or_insert -/

theorem rank_some_bounds {v k c : Nat} (h : rank v k = some c) : 1 ≤ k ∧ k ≤ 9 := by
  by_contra hk
  have hnot : ¬ (0 < k ∧ k < 10) := by omega
  rw [rank, if_neg hnot] at h
  exact Option.noConfusion h

theorem maskLoop_run (e k L : Nat) (hk : popcount e = k)
    (hbelow : ∀ j, j < L → e.testBit j = true) (hL : L < 128)
    (hne : popcount (e ||| 2 ^ L) ≠ k) :
    ∀ fuel p, p ≤ L → L + 2 ≤ p + fuel → maskLoop e k e p fuel = Option.some (e ||| 2 ^ L) := by
  intro fuel
  induction fuel with
  | zero => intro p hp hf; omega
  | succ fuel ih =>
    intro p hp hf
    simp only [maskLoop]
    rw [if_pos hk, if_neg (show ¬ 128 ≤ p by omega)]
    rcases Nat.lt_or_ge p L with hpL | hpL
    · rw [or_twoPow_eq_self (hbelow p hpL)]
      exact ih (p + 1) (by omega) (by omega)
    · have hpe : p = L := by omega
      subst hpe
      cases fuel with
      | zero => omega
      | succ fuel2 =>
        simp only [maskLoop]
        rw [if_neg hne]

theorem maskLoop_result (e k : Nat) (he : e < 2 ^ 128) (hk : popcount e = k)
    (hk9 : k ≤ 9) :
    maskLoop e k e 0 130 = Option.some (e ||| 2 ^ leastUnset e) := by
  have hex : ∃ i, i < 129 ∧ e.testBit i = false :=
    ⟨128, by omega, Nat.testBit_lt_two_pow he⟩
  have hsp := leastUnsetFuel_spec 129 e hex
  have hfirst : e.testBit (leastUnset e) = false := hsp.1
  have hbelow : ∀ j, j < leastUnset e → e.testBit j = true := hsp.2
  have hpcW : pcW e = k := by rw [← popcount_eq_pcW he]; exact hk
  have hbound : leastUnset e ≤ k := by
    have := le_pcW_of_below (leastUnset e) e hbelow
    omega
  have hL : leastUnset e < 128 := by omega
  have hlt : e ||| 2 ^ leastUnset e < 2 ^ 128 :=
    Nat.or_lt_two_pow he (Nat.pow_lt_pow_right (by norm_num) hL)
  have hne : popcount (e ||| 2 ^ leastUnset e) ≠ k := by
    have hp : pcW (e ||| 2 ^ leastUnset e) = pcW e + 1 :=
      pcW_lor_two_pow (leastUnset e) e hfirst
    rw [popcount_eq_pcW hlt, hp]
    omega
  exact maskLoop_run e k (leastUnset e) hk hbelow hL hne 130 0 (Nat.zero_le _) (by omega)

/-- C7: `mask_or_insert` with the existing merged marker `e` and correct
marker `c = rank(value, κ)`: (a) `popcount(e) > κ`: returns `false`, state
unchanged; (b) `popcount(e) = κ` and `e = c`: returns `true`, state
unchanged; (c) `popcount(e) = κ` and `e ≠ c`: ORs `e` plus its least unset
bit (the smallest additional bit raising the popcount above κ) into the k
positions, returns `false`, and a subsequent `get` of the key is
`Indeterminate`; (d) `popcount(e) < κ`: inserts `c` normally and returns
`true`. -/
theorem claim_C7_mask_or_insert (m : BFieldMember) (hash : Nat × Nat) (value c : Nat)
    (hrank : rank value m.params.n_marker_bits = some c)
    (hk16 : m.params.n_hashes ≤ 16)
    (hκν : m.params.n_marker_bits < m.params.marker_width)
    (hν128 : m.params.marker_width ≤ 128)
    (hsize : m.params.marker_width < m.size) :
    (m.params.n_marker_bits < popcount (get_raw m hash m.params.n_marker_bits) →
      mask_or_insert m hash value = Option.some (false, m)) ∧
    (popcount (get_raw m hash m.params.n_marker_bits) = m.params.n_marker_bits →
      get_raw m hash m.params.n_marker_bits = c →
      mask_or_insert m hash value = Option.some (true, m)) ∧
    (popcount (get_raw m hash m.params.n_marker_bits) = m.params.n_marker_bits →
      get_raw m hash m.params.n_marker_bits ≠ c →
      mask_or_insert m hash value = Option.some (false,
        insert_raw m hash
          (get_raw m hash m.params.n_marker_bits |||
            2 ^ leastUnset (get_raw m hash m.params.n_marker_bits))) ∧
      memberGet (insert_raw m hash
          (get_raw m hash m.params.n_marker_bits |||
            2 ^ leastUnset (get_raw m hash m.params.n_marker_bits))) hash =
        Option.some BFieldLookup.indeterminate) ∧
    (popcount (get_raw m hash m.params.n_marker_bits) < m.params.n_marker_bits →
      mask_or_insert m hash value = Option.some (true, insert_raw m hash c)) := by
  have hk9 := rank_some_bounds hrank
  have h16 : ¬ 16 < m.params.n_hashes := by omega
  refine ⟨?_, ?_, ?_, ?_⟩
  · intro hgt
    simp only [mask_or_insert]
    rw [hrank, Option.some_bind, if_neg h16, if_pos hgt]
  · intro hpc heq
    simp only [mask_or_insert]
    rw [hrank, Option.some_bind, if_neg h16,
      if_neg (show ¬ m.params.n_marker_bits <
        popcount (get_raw m hash m.params.n_marker_bits) by omega),
      if_pos hpc, if_pos heq]
  · intro hpc hne
    have he_lt : get_raw m hash m.params.n_marker_bits < 2 ^ 128 := get_raw_lt m hash _
    have hpcW_e : pcW (get_raw m hash m.params.n_marker_bits) = m.params.n_marker_bits := by
      rw [← popcount_eq_pcW he_lt]; exact hpc
    have hml := maskLoop_result (get_raw m hash m.params.n_marker_bits)
      m.params.n_marker_bits he_lt hpc hk9.2
    constructor
    · simp only [mask_or_insert]
      rw [hrank, Option.some_bind, if_neg h16,
        if_neg (show ¬ m.params.n_marker_bits <
          popcount (get_raw m hash m.params.n_marker_bits) by omega),
        if_pos hpc, if_neg hne, hml]
      rfl
    · -- the newly written member reads back with popcount > κ
      have hex : ∃ i, i < 129 ∧ (get_raw m hash m.params.n_marker_bits).testBit i = false :=
        ⟨128, by omega, Nat.testBit_lt_two_pow he_lt⟩
      have hsp := leastUnsetFuel_spec 129 (get_raw m hash m.params.n_marker_bits) hex
      have hfirst : (get_raw m hash m.params.n_marker_bits).testBit
          (leastUnset (get_raw m hash m.params.n_marker_bits)) = false := hsp.1
      have hbelow : ∀ j, j < leastUnset (get_raw m hash m.params.n_marker_bits) →
          (get_raw m hash m.params.n_marker_bits).testBit j = true := hsp.2
      have hbound : leastUnset (get_raw m hash m.params.n_marker_bits) ≤
          m.params.n_marker_bits := by
        have := le_pcW_of_below (leastUnset (get_raw m hash m.params.n_marker_bits))
          (get_raw m hash m.params.n_marker_bits) hbelow
        omega
      have hpc_nm : pcW (get_raw m hash m.params.n_marker_bits |||
          2 ^ leastUnset (get_raw m hash m.params.n_marker_bits)) =
          m.params.n_marker_bits + 1 := by
        rw [pcW_lor_two_pow _ _ hfirst, hpcW_e]
      -- e is the full intersection (no early exit happened)
      have hcases : (m.params.n_marker_bits ≤ popcount (mergedAll m hash) →
            get_raw m hash m.params.n_marker_bits = mergedAll m hash) ∧
          (popcount (mergedAll m hash) < m.params.n_marker_bits →
            popcount (get_raw m hash m.params.n_marker_bits) < m.params.n_marker_bits) :=
        getRawFold_spec m.bits m.params.marker_width m.params.n_marker_bits
          (memberPositions m hash) (2 ^ 128 - 1) (by norm_num)
      have he_full : get_raw m hash m.params.n_marker_bits = mergedAll m hash := by
        by_cases hf : m.params.n_marker_bits ≤ popcount (mergedAll m hash)
        · exact hcases.1 hf
        · exfalso
          have h2 := hcases.2 (by omega)
          omega
      -- the new merged marker contains both e and the extra bit
      have hsub_e : Submask (get_raw m hash m.params.n_marker_bits)
          (mergedAll (insert_raw m hash (get_raw m hash m.params.n_marker_bits |||
            2 ^ leastUnset (get_raw m hash m.params.n_marker_bits))) hash) := by
        rw [he_full]
        exact mergedAll_insert_mono m hash _
      have hsub_bit : Submask (2 ^ leastUnset (get_raw m hash m.params.n_marker_bits))
          (mergedAll (insert_raw m hash (get_raw m hash m.params.n_marker_bits |||
            2 ^ leastUnset (get_raw m hash m.params.n_marker_bits))) hash) := by
        have h1 : Submask (2 ^ leastUnset (get_raw m hash m.params.n_marker_bits))
            ((get_raw m hash m.params.n_marker_bits |||
              2 ^ leastUnset (get_raw m hash m.params.n_marker_bits)) %
              2 ^ m.params.marker_width) := by
          intro j hj
          rw [Nat.testBit_two_pow] at hj
          have hLj : leastUnset (get_raw m hash m.params.n_marker_bits) = j :=
            of_decide_eq_true hj
          subst hLj
          rw [Nat.testBit_mod_two_pow, Nat.testBit_lor, hfirst]
          have hlv : leastUnset (get_raw m hash m.params.n_marker_bits) <
              m.params.marker_width := by omega
          simp [hlv, Nat.testBit_two_pow]
        exact submask_trans h1 (mergedAll_insert_subset m hash _ hν128)
      have hsub_nm := submask_lor_intro hsub_e hsub_bit
      have hfull_lt : mergedAll (insert_raw m hash
          (get_raw m hash m.params.n_marker_bits |||
            2 ^ leastUnset (get_raw m hash m.params.n_marker_bits))) hash < 2 ^ 128 :=
        mergedAll_lt _ _
      have hpc_full : m.params.n_marker_bits + 1 ≤
          pcW (mergedAll (insert_raw m hash
            (get_raw m hash m.params.n_marker_bits |||
              2 ^ leastUnset (get_raw m hash m.params.n_marker_bits))) hash) := by
        have := pcW_le_of_submask _ _ hsub_nm
        omega
      rw [memberGet_classify _ hash (show (insert_raw m hash
          (get_raw m hash m.params.n_marker_bits |||
            2 ^ leastUnset (get_raw m hash m.params.n_marker_bits))).params.n_hashes ≤ 16
          from hk16)]
      rw [show (insert_raw m hash
          (get_raw m hash m.params.n_marker_bits |||
            2 ^ leastUnset (get_raw m hash m.params.n_marker_bits))).params = m.params
          from rfl]
      rw [popcount_eq_pcW hfull_lt]
      rw [if_pos (show m.params.n_marker_bits <
        pcW (mergedAll (insert_raw m hash
          (get_raw m hash m.params.n_marker_bits |||
            2 ^ leastUnset (get_raw m hash m.params.n_marker_bits))) hash) by omega)]
  · intro hlt
    simp only [mask_or_insert]
    rw [hrank, Option.some_bind, if_neg h16,
      if_neg (show ¬ m.params.n_marker_bits <
        popcount (get_raw m hash m.params.n_marker_bits) by omega),
      if_neg (show ¬ popcount (get_raw m hash m.params.n_marker_bits) =
        m.params.n_marker_bits by omega)]

/-- C7 witness: an all-zero member (k = 2, ν = 10, κ = 3, size 32) and value
0 (marker 7): the merged marker is empty, so case (d) applies — the marker
is inserted and the call returns `true`. -/
theorem claim_C7_witness :
    mask_or_insert (BFieldMember.mk 32 (fun _ => false) (BFieldParams.mk 2 10 3)) (3, 4) 0 =
      Option.some (true,
        insert_raw (BFieldMember.mk 32 (fun _ => false) (BFieldParams.mk 2 10 3)) (3, 4) 7) :=
  (claim_C7_mask_or_insert (BFieldMember.mk 32 (fun _ => false) (BFieldParams.mk 2 10 3))
    (3, 4) 0 7 (by decide) (by decide) (by decide) (by decide) (by decide)).2.2.2 (by decide)

/-! ## Claim C9: the 128/16/64/8 saturation member -/

set_option maxRecDepth 40000 in
/-- C9 counterexample: in the fresh 128-bit member with k = 16, ν = 64,
κ = 8, a key whose hash pair is `(0, 0)` has all 16 offsets equal to 0, so a
single `insert(key, 0)` writes the marker once and `get(key)` reads back
exactly that marker: the result is `Some 0`, not `Indeterminate`. -/
theorem claim_C9_cex :
    (memberInsert memberC9 (0, 0) 0).map (fun m2 => memberGet m2 (0, 0)) =
      Option.some (Option.some (BFieldLookup.some 0)) ∧
    (Option.some (BFieldLookup.some 0) : Option BFieldLookup) ≠
      Option.some BFieldLookup.indeterminate := by
  constructor
  · decide
  · decide

/-- C9 (amended): in the fresh 128/16/64/8 member, after one insert of an
in-domain value the `get` of the same key is either `Indeterminate` or
`Some(value)` — saturation is the typical but not guaranteed outcome, since
all 16 slices contain the inserted marker but may or may not accumulate
extra bits, depending on how the 16 offsets overlap. -/
theorem claim_C9_saturation (hash : Nat × Nat) (value : Nat) (hv : value < 200000) :
    ∃ m2, memberInsert memberC9 hash value = Option.some m2 ∧
      (memberGet m2 hash = Option.some BFieldLookup.indeterminate ∨
       memberGet m2 hash = Option.some (BFieldLookup.some value)) := by
  have h64 : value < Nat.choose 64 8 := by
    have h200 : (200000 : Nat) < Nat.choose 64 8 := by
      rw [Nat.choose_eq_descFactorial_div_factorial]
      decide
    omega
  obtain ⟨mk, hmk, hpc, hval, hlt⟩ := rank_good 8 value (by norm_num) (by norm_num) hv h64
  refine ⟨insert_raw memberC9 hash mk, ?_, ?_⟩
  · show (rank value 8).map (insert_raw memberC9 hash) =
      Option.some (insert_raw memberC9 hash mk)
    rw [hmk]
    rfl
  · have hk16 : memberC9.params.n_hashes ≤ 16 := by decide
    have hsub : Submask mk (mergedAll (insert_raw memberC9 hash mk) hash) := by
      have hmod : mk % 2 ^ memberC9.params.marker_width = mk := by
        show mk % 2 ^ (64 : Nat) = mk
        exact Nat.mod_eq_of_lt hlt
      have h0 := mergedAll_insert_subset memberC9 hash mk (by decide)
      rw [hmod] at h0
      exact h0
    have hfull_lt := mergedAll_lt (insert_raw memberC9 hash mk) hash
    have hpc_ge : 8 ≤ pcW (mergedAll (insert_raw memberC9 hash mk) hash) := by
      have := pcW_le_of_submask _ _ hsub
      omega
    have hcases : (8 ≤ popcount (mergedAll (insert_raw memberC9 hash mk) hash) →
          get_raw (insert_raw memberC9 hash mk) hash 8 =
            mergedAll (insert_raw memberC9 hash mk) hash) ∧
        (popcount (mergedAll (insert_raw memberC9 hash mk) hash) < 8 →
          popcount (get_raw (insert_raw memberC9 hash mk) hash 8) < 8) :=
      getRawFold_spec (insert_raw memberC9 hash mk).bits 64 8
        (memberPositions (insert_raw memberC9 hash mk) hash) (2 ^ 128 - 1) (by norm_num)
    have hgot : get_raw (insert_raw memberC9 hash mk) hash 8 =
        mergedAll (insert_raw memberC9 hash mk) hash :=
      hcases.1 (by rw [popcount_eq_pcW hfull_lt]; omega)
    rw [memberGet_classify (insert_raw memberC9 hash mk) hash hk16,
      show (insert_raw memberC9 hash mk).params.n_marker_bits = 8 from rfl,
      popcount_eq_pcW hfull_lt]
    rcases Nat.lt_or_ge 8 (pcW (mergedAll (insert_raw memberC9 hash mk) hash)) with hgt | hle
    · left
      rw [if_pos hgt]
    · have heqm : mk = mergedAll (insert_raw memberC9 hash mk) hash :=
        eq_of_submask_pcW _ _ hsub (by omega)
      right
      rw [← heqm, if_neg (show ¬ 8 < pcW mk by omega), if_pos (show pcW mk = 8 by omega),
        unrank_eq hlt (by omega) (by rw [hval]; omega), Option.map_some', hval,
        Nat.mod_eq_of_lt (show value < 2 ^ 32 by omega)]

/-- C9 witness: the amended theorem at hash pair `(1, 2)` and value 77. -/
theorem claim_C9_witness :
    ∃ m2, memberInsert memberC9 (1, 2) 77 = Option.some m2 ∧
      (memberGet m2 (1, 2) = Option.some BFieldLookup.indeterminate ∨
       memberGet m2 (1, 2) = Option.some (BFieldLookup.some 77)) :=
  claim_C9_saturation (1, 2) 77 (by norm_num)

end BFieldVerify
